import Mathlib

/-!
Shallow embedding of `src/logutil.py`, a multi-file log search-and-merge tool.

Python text (`str`) is modelled as `List Char`; a file is the list of its
physical lines exactly as `readline` yields them, i.e. each line carries its
trailing newline and the empty string occurs only at end of file.  Loops of
the source that are not structurally recursive are written with an explicit
fuel argument (so that every definition reduces in the kernel); each public
wrapper passes fuel that provably suffices, and the fuel-exhausted branch
coincides with the value the loop would produce in the only state that can
reach it.
-/

/-- Text, modelling a Python `str` as its list of characters. -/
abbrev Str := List Char

/-- Escape character that begins every colour code of the `bcolors` class. -/
def ESC : Char := '\x1b'

/-- Model of `bcolors.BOLD`, the string `"\033[1m"`. -/
def bcolors.BOLD : Str := [ESC, '[', '1', 'm']

/-- Model of `bcolors.WARNING`, the string `"\033[93m"`. -/
def bcolors.WARNING : Str := [ESC, '[', '9', '3', 'm']

/-- Model of `bcolors.ENDC`, the string `"\033[0m"`. -/
def bcolors.ENDC : Str := [ESC, '[', '0', 'm']

/-- Model of `bcolors.OKBLUE`, the string `"\033[94m"`. -/
def bcolors.OKBLUE : Str := [ESC, '[', '9', '4', 'm']

/-- Characters stripped by Python `str.strip()` (the ASCII whitespace set;
non-ASCII whitespace does not occur in the tool's input). -/
def isPySpace (c : Char) : Bool :=
  c == ' ' || c == '\t' || c == '\n' || c == '\r' || c == '\x0b' || c == '\x0c'

/-- Model of Python `s.strip()`: remove leading and trailing whitespace. -/
def pyStrip (s : Str) : Str :=
  ((s.dropWhile isPySpace).reverse.dropWhile isPySpace).reverse

/-- Test `line.startswith("20")` from `LogFile.read_line`. -/
def starts20 (l : Str) : Bool :=
  List.isPrefixOf ['2', '0'] l

/-- Model of Python's substring test `sub in s`. -/
def strContains (sub : Str) : Str → Bool
  | [] => sub.isEmpty
  | c :: s => sub.isPrefixOf (c :: s) || strContains sub s

/-- Index of the leftmost occurrence of `old` in `s`, the position at which
Python `str.replace` performs its first substitution. -/
def firstMatchPos (old : Str) : Str → Option Nat
  | [] => none
  | c :: s => if old.isPrefixOf (c :: s) then some 0 else (firstMatchPos old s).map (· + 1)

/-- Model of Python `s.replace("", new, count)`: `new` is inserted before
every character and once at the end, bounded by `count` insertions. -/
def pyReplaceEmpty (new : Str) : Str → Nat → Str
  | s, 0 => s
  | [], _ + 1 => new
  | c :: s, n + 1 => new ++ c :: pyReplaceEmpty new s n

/-- Fuelled model of Python `s.replace(old, new, count)` for `old ≠ ""`:
scan left to right, replacing the leftmost occurrence and continuing after
the inserted text, at most `count` times.  The fuel bounds the number of
characters consumed; `s.length` always suffices. -/
def pyReplaceNEF (old new : Str) : Nat → Str → Nat → Str
  | 0, s, _ => s
  | _ + 1, s, 0 => s
  | _ + 1, [], _ + 1 => []
  | fuel + 1, c :: s, n + 1 =>
    if old.isPrefixOf (c :: s) then
      new ++ pyReplaceNEF old new fuel ((c :: s).drop old.length) n
    else
      c :: pyReplaceNEF old new fuel s (n + 1)

/-- Model of Python `s.replace(old, new, count)`. -/
def pyReplace (s old new : Str) (count : Nat) : Str :=
  if old = [] then pyReplaceEmpty new s count else pyReplaceNEF old new s.length s count

/-- Decimal rendering of a line number, Python `str(n)`. -/
def natStr (n : Nat) : Str :=
  (toString n).toList

/-- Character class required at position `i` of the timestamp pattern
`\d{4}-\d{2}-\d{2} \d{2}:\d{2}:\d{2}\.\d{3}` (a 23-character match;
`\d` is modelled as an ASCII digit). -/
def tsClass (i : Nat) (c : Char) : Bool :=
  if i = 4 ∨ i = 7 then c == '-'
  else if i = 10 then c == ' '
  else if i = 13 ∨ i = 16 then c == ':'
  else if i = 19 then c == '.'
  else c.isDigit

/-- Whether `date_pattern.match(s)` succeeds, i.e. the first 23 characters
of `s` exist and fit the timestamp pattern (the pattern is anchored at the
start of the string by `re.match`). -/
def tsCheck (s : Str) : Bool :=
  decide (23 ≤ s.length) &&
    (List.range 23).all fun i =>
      match s[i]? with
      | some c => tsClass i c
      | none => false

/-- Model of `get_date`: the leading 23-character timestamp of `line`, or
the empty string when the anchored pattern does not match. -/
def get_date (line : Str) : Str :=
  if tsCheck line = true then line.take 23 else []

example : get_date (("2024-01-01 10:00:00.000 ERROR boom").toList) =
    ("2024-01-01 10:00:00.000").toList := by decide

example : get_date (("20 boom").toList) = [] := by decide

example : pyStrip (("  a b\n").toList) = ("a b").toList := by decide

example : strContains (("bo").toList) (("a boom").toList) = true := by decide

example : pyReplace (("a boom b boom").toList) (("boom").toList) (("X").toList) 9999 =
    ("a X b X").toList := by decide

instance {ε α : Type} [DecidableEq ε] [DecidableEq α] : DecidableEq (Except ε α) := fun x y =>
  match x, y with
  | .ok a, .ok b => if h : a = b then .isTrue (by rw [h]) else .isFalse (by simp [h])
  | .error a, .error b => if h : a = b then .isTrue (by rw [h]) else .isFalse (by simp [h])
  | .ok _, .error _ => .isFalse (by simp)
  | .error _, .ok _ => .isFalse (by simp)

/-- Highlight markup wrapped around the search expression in
`LogFile.read_line`: `bcolors.BOLD + bcolors.WARNING + expr + bcolors.ENDC`. -/
def wrapHl (expr : Str) : Str :=
  bcolors.BOLD ++ bcolors.WARNING ++ expr ++ bcolors.ENDC

/-- Exception `MatchKeyMissingError(message)` raised by `LogFile.read_line`
in strict-key mode. -/
structure MatchKeyMissingError where
  message : Str
  deriving DecidableEq

/-- Message of the `MatchKeyMissingError` raised at the record starting on
physical line `lineNo`: the f-string
`"Cannot extract date: file {file_name}, line number {n}:\n{current_line}"`. -/
def errMsg (file_name : Str) (lineNo : Nat) (text : Str) : Str :=
  ("Cannot extract date: file ").toList ++ file_name ++
    (", line number ").toList ++ natStr lineNo ++ (":\n").toList ++ text

/-- State produced by the continuation-folding inner `while` loop of
`LogFile.read_line`: the (possibly extended) current logical line, the lines
still unread (headed by `next_line`) and the `line_number` counter. -/
structure FoldRes where
  line : Str
  pending : List Str
  lineNo : Nat
  deriving DecidableEq

/-- Inner `while` loop of `LogFile.read_line`: while `next_line` is non-empty
and does not start a new record, append it to the current line when
`full_exceptions` is set (discard it otherwise) and read on.  `pending` is
headed by `next_line` and `n` is its 1-based line number. -/
def foldCont (fold : Bool) : Str → List Str → Nat → FoldRes
  | cur, [], n => ⟨cur, [], n⟩
  | cur, l :: rest, n =>
    if l = [] ∨ starts20 l = true then ⟨cur, l :: rest, n⟩
    else foldCont fold (if fold then cur ++ l else cur) rest (n + 1)

/-- Result of one call to `LogFile.read_line`: `found = some (line, key)`
holds the new `current_line` and `current_match`, `found = none` is end of
file; `pending`, `lineNo`, `missing` are the updated reader state. -/
structure RLRes where
  found : Option (Str × Str)
  pending : List Str
  lineNo : Nat
  missing : List Str
  deriving DecidableEq

/-- Fuelled model of the outer `while True` loop of `LogFile.read_line`.
`pending` is headed by `next_line`, `n` is that line's 1-based number and
`miss` is `missing_date_lines`.  Fuel `pending.length` always suffices, and
the fuel-exhausted branch equals the genuine answer in the one state that
can reach it (`pending = []`). -/
def read_line_fuel (extract : Str → Str) (expr : Str) (fold strict : Bool) (fname : Str) :
    Nat → List Str → Nat → List Str → Except MatchKeyMissingError RLRes
  | 0, pending, n, miss => .ok ⟨none, pending, n, miss⟩
  | _ + 1, [], n, miss => .ok ⟨none, [], n, miss⟩
  | fuel + 1, cur :: rest, n, miss =>
    if cur = [] then .ok ⟨none, cur :: rest, n, miss⟩
    else
      let fr := if starts20 cur then foldCont fold cur rest (n + 1) else ⟨cur, rest, n + 1⟩
      let cur2 := pyStrip fr.line
      if cur2 ≠ [] ∧ strContains expr cur2 = true then
        let hl := pyReplace cur2 expr (wrapHl expr) 9999
        let key := extract hl
        if key ≠ [] then .ok ⟨some (hl, key), fr.pending, fr.lineNo, miss⟩
        else if strict then .error ⟨errMsg fname n hl⟩
        else read_line_fuel extract expr fold strict fname fuel fr.pending fr.lineNo
          (miss ++ [natStr n ++ (": ").toList ++ hl])
      else read_line_fuel extract expr fold strict fname fuel fr.pending fr.lineNo miss

/-- Model of `LogFile.read_line` acting on the reader state (`pending`
headed by `next_line`, `n` the 1-based number of `next_line`, `miss` the
accumulated `missing_date_lines`). -/
def read_line_core (extract : Str → Str) (expr : Str) (fold strict : Bool) (fname : Str)
    (pending : List Str) (n : Nat) (miss : List Str) : Except MatchKeyMissingError RLRes :=
  read_line_fuel extract expr fold strict fname pending.length pending n miss

/-- Model of `re.sub(r'^.*/', '', file_name)` computing
`simple_file_name`: drop everything up to the last `/`. -/
def simple_name (file_name : Str) : Str :=
  (file_name.reverse.takeWhile (fun c => c != '/')).reverse

/-- State of one `LogFile` object.  `pending` models the unread tail of the
open file, headed by `next_line`; `line_number` is the 1-based number of
`next_line`, as maintained by `read_next_line_from_file`. -/
structure LogFile where
  file_name : Str
  simple_file_name : Str
  search_expression : Str
  full_exceptions : Bool
  break_on_match_key_missing : Bool
  extract_match_key_func : Str → Str
  pending : List Str
  line_number : Nat
  current_line : Str
  current_match : Str
  eof : Bool
  missing_date_lines : List Str

instance : Inhabited LogFile :=
  ⟨⟨[], [], [], false, false, fun _ => [], [], 0, [], [], true, []⟩⟩

/-- Method `LogFile.read_line` on the object state: on success the fields
`pending`, `line_number`, `missing_date_lines` are updated; at end of file
`eof` is set, `current_line` becomes the empty string (it is assigned the
empty `next_line`) and `current_match` keeps its stale value, exactly as in
the source. -/
def LogFile.read_line (lf : LogFile) : Except MatchKeyMissingError LogFile :=
  match read_line_core lf.extract_match_key_func lf.search_expression lf.full_exceptions
      lf.break_on_match_key_missing lf.file_name lf.pending lf.line_number
      lf.missing_date_lines with
  | .error e => .error e
  | .ok r =>
    .ok { lf with
      pending := r.pending
      line_number := r.lineNo
      missing_date_lines := r.missing
      eof := r.found.isNone
      current_line := (r.found.map Prod.fst).getD []
      current_match := (r.found.map Prod.snd).getD lf.current_match }

/-- Constructor `LogFile.__init__`: open the file (its lines are `content`),
read the first physical line (so `line_number = 1` and `pending = content`)
and pre-fetch the first record with `read_line` — which can already raise
`MatchKeyMissingError` in strict-key mode. -/
def LogFile.init (file_name : Str) (extract : Str → Str) (expr : Str)
    (full_exceptions break_on : Bool) (content : List Str) :
    Except MatchKeyMissingError LogFile :=
  LogFile.read_line
    { file_name := file_name
      simple_file_name := simple_name file_name
      search_expression := expr
      full_exceptions := full_exceptions
      break_on_match_key_missing := break_on
      extract_match_key_func := extract
      pending := content
      line_number := 1
      current_line := []
      current_match := []
      eof := false
      missing_date_lines := [] }

example :
    (LogFile.init (("a.log").toList) get_date (("boom").toList) false false
        [("2024-01-01 10:00:00.000 ERROR boom\n").toList]).map
      (fun lf => (lf.current_match, lf.eof, lf.missing_date_lines)) =
    .ok (("2024-01-01 10:00:00.000").toList, false, []) := by decide

example :
    (LogFile.init (("a.log").toList) get_date (("boom").toList) false false
        [("boom\n").toList]).map
      (fun lf => (lf.eof, lf.missing_date_lines)) =
    .ok (true, [("1: ").toList ++ wrapHl (("boom").toList)]) := by decide

example :
    (LogFile.init (("a.log").toList) get_date (("boom").toList) false true
        [("20 boom\n").toList]).map (fun _ => ()) =
    .error ⟨errMsg (("a.log").toList) 1 ((("20 ").toList) ++ wrapHl (("boom").toList))⟩ := by
  decide

/-- Model of Python string comparison `a < b`: lexicographic by code point,
a strict prefix is smaller. -/
def strLt : Str → Str → Bool
  | [], [] => false
  | [], _ :: _ => true
  | _ :: _, [] => false
  | a :: s, b :: t => if a < b then true else if a = b then strLt s t else false

/-- Non-strict string order `a <= b`, as `not (b < a)`. -/
def strLe (a b : Str) : Prop :=
  strLt b a = false

/-- Model of `min(open_files, key=lambda x: x.current_match)` over
`open_files = filter(lambda file: not file.eof, log_files)`: the index (in
`log_files`) of the first not-yet-exhausted file whose key is strictly
smaller than every earlier candidate — Python's `min` keeps the first
minimum, and removing exhausted files preserves the order of the rest, so
scanning the full list while skipping `eof` files is equivalent. -/
def selectMin : Nat → Option (Nat × Str) → List LogFile → Option Nat
  | _, best, [] => best.map Prod.fst
  | i, best, f :: fs =>
    if f.eof then selectMin (i + 1) best fs
    else
      match best with
      | none => selectMin (i + 1) (some (i, f.current_match)) fs
      | some (bi, bk) =>
        if strLt f.current_match bk = true then selectMin (i + 1) (some (i, f.current_match)) fs
        else selectMin (i + 1) (some (bi, bk)) fs

/-- Weight of one source for the merge-loop fuel: an exhausted source never
advances again; an open one can advance at most once per unread line, plus
once to reach end of file. -/
def lfWeight (f : LogFile) : Nat :=
  if f.eof then 0 else f.pending.length + 1

/-- Total fuel bound for the merge loop. -/
def totalWeight (files : List LogFile) : Nat :=
  (files.map lfWeight).sum

/-- Fuelled model of the `while True` merge loop of `grep_for_logs`: select
the open source with the smallest `current_match`, print its `current_line`
(prefixed with the colourised `simple_file_name` when `-f` is set), advance
it, drop it once exhausted.  Emits `(current_match, printed line)` pairs;
on `MatchKeyMissingError` the loop stops after the lines already printed. -/
def merge_loop_fuel (showName : Bool) :
    Nat → List LogFile → List (Str × Str) × Except MatchKeyMissingError (List LogFile)
  | 0, files => ([], .ok files)
  | fuel + 1, files =>
    match selectMin 0 none files with
    | none => ([], .ok files)
    | some i =>
      let f := files.getD i default
      let printed :=
        if showName then
          bcolors.OKBLUE ++ f.simple_file_name ++ bcolors.ENDC ++ (":").toList ++ f.current_line
        else f.current_line
      match f.read_line with
      | .error e => ([(f.current_match, printed)], .error e)
      | .ok f' =>
        let r := merge_loop_fuel showName fuel (files.set i f')
        ((f.current_match, printed) :: r.1, r.2)

/-- Merge loop with its provably sufficient fuel. -/
def merge_loop (showName : Bool) (files : List LogFile) :
    List (Str × Str) × Except MatchKeyMissingError (List LogFile) :=
  merge_loop_fuel showName (totalWeight files + 1) files

/-- Sequential construction of the `LogFile` objects in `grep_for_logs`
(the `for name in file_names` loop).  Returns the names whose `open()` ran,
paired with either all constructed objects or the error that escaped a
constructor; construction stops at the first failing file. -/
def openAll (extract : Str → Str) (expr : Str) (fold strict : Bool) :
    List (Str × List Str) → List Str × Except MatchKeyMissingError (List LogFile)
  | [] => ([], .ok [])
  | (name, content) :: rest =>
    match LogFile.init name extract expr fold strict content with
    | .error e => ([name], .error e)
    | .ok lf =>
      let r := openAll extract expr fold strict rest
      (name :: r.1, r.2.map (lf :: ·))

/-- Header line printed before the keyless-match summary. -/
def mmHeader : Str :=
  ("--------- ERRORS: missing match key -----------------------------------------------").toList

/-- Loop body of `print_missing_date_lines` with the
`missing_keys_header_printed` flag. `print("File:", name)` joins with one
space; `print("  Line ", line)` joins the trailing-space prefix and the
entry with one more space. -/
def pmdlAux : Bool → List LogFile → List Str
  | _, [] => []
  | hp, f :: fs =>
    if 0 < f.missing_date_lines.length then
      (if hp then [] else [mmHeader]) ++
        ((("File: ").toList ++ f.file_name) ::
          f.missing_date_lines.map (fun l => ("  Line  ").toList ++ l)) ++
        pmdlAux true fs
    else pmdlAux hp fs

/-- Model of `print_missing_date_lines(log_files)`. -/
def print_missing_date_lines (files : List LogFile) : List Str :=
  pmdlAux false files

/-- Parsed command-line arguments relevant to the engine (directories and
the file-name suffix only feed the file-discovery glue, which the model
replaces by an explicit list of discovered files). -/
structure Arguments where
  search_expression : Str
  show_exceptions : Bool
  show_file_name : Bool
  break_on_date_missing : Bool

/-- Order in which `file_names.sort()` arranges the discovered files. -/
def nameLe (a b : Str × List Str) : Prop :=
  strLt b.1 a.1 = false

instance : DecidableRel nameLe := fun a b =>
  inferInstanceAs (Decidable (strLt b.1 a.1 = false))

/-- Model of `file_names.sort()`: the discovered (name, content) pairs in
ascending name order. -/
def sortFiles (files : List (Str × List Str)) : List (Str × List Str) :=
  List.insertionSort nameLe files

/-- Observable outcome of one run of `grep_for_logs`: printed stdout lines,
stderr lines, the exit code, and the names of the files whose handles were
opened resp. explicitly closed (interpreter shutdown is not modelled — the
spec's resource guarantee is about scoped release). -/
structure RunOutcome where
  stdout : List Str
  stderr : List Str
  exitCode : Nat
  opened : List Str
  closed : List Str
  deriving DecidableEq

/-- Model of `grep_for_logs(arguments)` on the discovered files (as
name–content pairs, in discovery order).  The constructor `for` loop sits
outside the `try`/`finally`, so an error during construction escapes the
function uncaught: exit code 1 and no `close()` call runs.  An error inside
the merge loop is caught, `die` runs, and the `finally` clause closes every
constructed file first. -/
def grep_for_logs (args : Arguments) (files : List (Str × List Str)) : RunOutcome :=
  let sorted := sortFiles files
  if 20 < sorted.length then
    ⟨[], [("Too many files").toList], 1, [], []⟩
  else
    match openAll get_date args.search_expression args.show_exceptions
        args.break_on_date_missing sorted with
    | (opened, .error e) => ⟨[], [e.message], 1, opened, []⟩
    | (opened, .ok lfs) =>
      let r := merge_loop args.show_file_name lfs
      match r.2 with
      | .ok finals =>
        ⟨r.1.map Prod.snd ++ print_missing_date_lines finals, [], 0,
          opened, lfs.map (·.file_name)⟩
      | .error e =>
        ⟨r.1.map Prod.snd, [("ERROR - EXITING: ").toList ++ e.message], 1,
          opened, lfs.map (·.file_name)⟩

example :
    (grep_for_logs ⟨("boom").toList, false, true, true⟩
        [(("a.log").toList, [("2024-01-01 10:00:00.000 ERROR boom\n").toList]),
         (("b.log").toList, [("2024-01-01 09:00:00.000 ERROR boom\n").toList])]).stdout =
    [bcolors.OKBLUE ++ ("b.log").toList ++ bcolors.ENDC ++ (":").toList ++
       ("2024-01-01 09:00:00.000 ERROR ").toList ++ wrapHl (("boom").toList),
     bcolors.OKBLUE ++ ("a.log").toList ++ bcolors.ENDC ++ (":").toList ++
       ("2024-01-01 10:00:00.000 ERROR ").toList ++ wrapHl (("boom").toList)] := by
  decide

theorem strLt_irrefl (a : Str) : strLt a a = false := by
  induction a with
  | nil => rfl
  | cons c s ih => simp [strLt, ih]

theorem strLt_trans {a b c : Str} :
    strLt a b = true → strLt b c = true → strLt a c = true := by
  induction a generalizing b c with
  | nil =>
    intro h1 h2
    cases b with
    | nil => simp [strLt] at h1
    | cons y bs =>
      cases c with
      | nil => simp [strLt] at h2
      | cons z cs => rfl
  | cons x as ih =>
    intro h1 h2
    cases b with
    | nil => simp [strLt] at h1
    | cons y bs =>
      cases c with
      | nil => simp [strLt] at h2
      | cons z cs =>
        simp only [strLt] at h1 h2 ⊢
        by_cases hxy : x < y
        · by_cases hyz : y < z
          · simp [lt_trans hxy hyz]
          · simp [hyz] at h2
            by_cases hyz2 : y = z
            · subst hyz2; simp [hxy]
            · simp [hyz2] at h2
        · simp [hxy] at h1
          by_cases hxy2 : x = y
          · subst hxy2
            simp at h1
            by_cases hyz : x < z
            · simp [hyz]
            · simp [hyz] at h2
              by_cases hyz2 : x = z
              · subst hyz2
                simp at h2
                simp [lt_irrefl, ih h1 h2]
              · simp [hyz2] at h2
          · simp [hxy2] at h1

theorem strLt_eq_of_not {a b : Str} (h1 : strLt a b = false) (h2 : strLt b a = false) :
    a = b := by
  induction a generalizing b with
  | nil =>
    cases b with
    | nil => rfl
    | cons y bs => simp [strLt] at h1
  | cons x as ih =>
    cases b with
    | nil => simp [strLt] at h2
    | cons y bs =>
      simp only [strLt] at h1 h2
      by_cases hxy : x < y
      · simp [hxy] at h1
      · by_cases hyx : y < x
        · simp [hyx] at h2
        · have hxy2 : x = y := le_antisymm (not_lt.mp hyx) (not_lt.mp hxy)
          subst hxy2
          simp [lt_irrefl] at h1 h2
          rw [ih h1 h2]

theorem strLt_asymm {a b : Str} (h : strLt a b = true) : strLt b a = false := by
  by_contra hc
  have hba : strLt b a = true := by
    cases hx : strLt b a with
    | false => exact absurd hx hc
    | true => rfl
  have := strLt_trans h hba
  rw [strLt_irrefl] at this
  exact Bool.false_ne_true this

theorem strLe_refl (a : Str) : strLe a a := strLt_irrefl a

theorem strLe_trans {a b c : Str} (h1 : strLe a b) (h2 : strLe b c) : strLe a c := by
  unfold strLe at h1 h2 ⊢
  cases hca : strLt c a with
  | false => rfl
  | true =>
    exfalso
    cases hbc : strLt b c with
    | true =>
      have h3 := strLt_trans hbc hca
      rw [h1] at h3
      simp at h3
    | false =>
      have hbceq : b = c := strLt_eq_of_not hbc h2
      subst hbceq
      rw [h1] at hca
      simp at hca

theorem strLe_total (a b : Str) : strLe a b ∨ strLe b a := by
  unfold strLe
  cases h : strLt b a with
  | false => exact Or.inl rfl
  | true => exact Or.inr (strLt_asymm h)

theorem strLe_of_strLt {a b : Str} (h : strLt a b = true) : strLe a b :=
  strLt_asymm h

theorem isPrefixOf_length_le {p s : Str} (h : p.isPrefixOf s = true) : p.length ≤ s.length := by
  induction p generalizing s with
  | nil => simp
  | cons c p' ih =>
    cases s with
    | nil => simp [List.isPrefixOf] at h
    | cons d s' =>
      simp only [List.isPrefixOf, Bool.and_eq_true] at h
      simpa using ih h.2

theorem isPrefixOf_append_self (p t : Str) : p.isPrefixOf (p ++ t) = true := by
  induction p with
  | nil => cases t <;> rfl
  | cons c p' ih => simp [List.isPrefixOf, ih]

theorem fmp_le_length {old s : Str} {k : Nat}
    (h : firstMatchPos old s = some k) : k + old.length ≤ s.length := by
  induction s generalizing k with
  | nil => simp [firstMatchPos] at h
  | cons c s' ih =>
    simp only [firstMatchPos] at h
    split at h
    · rename_i hp
      cases h
      simpa using isPrefixOf_length_le hp
    · cases hk : firstMatchPos old s' with
      | none => rw [hk] at h; simp at h
      | some k' =>
        rw [hk] at h
        simp at h
        subst h
        have := ih hk
        simp only [List.length_cons]
        omega

theorem fmp_lt_length {old s : Str} {k : Nat} (ho : old ≠ [])
    (h : firstMatchPos old s = some k) : k < s.length := by
  have h1 := fmp_le_length h
  have h2 : 1 ≤ old.length := by
    cases old with
    | nil => exact absurd rfl ho
    | cons _ _ => simp
  omega

theorem strContains_fmp {old s : Str} (ho : old ≠ []) (h : strContains old s = true) :
    ∃ k, firstMatchPos old s = some k := by
  induction s with
  | nil =>
    simp [strContains, List.isEmpty_iff] at h
    exact absurd h ho
  | cons c s' ih =>
    simp only [strContains, Bool.or_eq_true] at h
    cases h with
    | inl hp => exact ⟨0, by simp [firstMatchPos, hp]⟩
    | inr hc =>
      obtain ⟨k, hk⟩ := ih hc
      by_cases hp : List.isPrefixOf old (c :: s') = true
      · exact ⟨0, by simp [firstMatchPos, hp]⟩
      · exact ⟨k + 1, by simp [firstMatchPos, hp, hk]⟩

theorem strContains_of_isPrefixOf {sub s : Str} (h : sub.isPrefixOf s = true) :
    strContains sub s = true := by
  cases s with
  | nil =>
    cases sub with
    | nil => rfl
    | cons c p' => simp [List.isPrefixOf] at h
  | cons c s' => simp [strContains, h]

theorem strContains_append_right {sub t : Str} (u : Str) (h : strContains sub t = true) :
    strContains sub (u ++ t) = true := by
  induction u with
  | nil => exact h
  | cons c u' ih => simp [strContains, ih]

theorem pyReplaceNEF_fuel {old new : Str} (ho : old ≠ []) :
    ∀ f1 f2 s n, s.length ≤ f1 → s.length ≤ f2 →
      pyReplaceNEF old new f1 s n = pyReplaceNEF old new f2 s n := by
  intro f1
  induction f1 with
  | zero =>
    intro f2 s n h1 _
    have hs : s = [] := List.eq_nil_of_length_eq_zero (Nat.le_zero.mp h1)
    subst hs
    cases f2 with
    | zero => rfl
    | succ g => cases n <;> rfl
  | succ f ih =>
    intro f2 s n h1 h2
    cases s with
    | nil =>
      cases f2 with
      | zero => cases n <;> rfl
      | succ g => cases n <;> rfl
    | cons c s' =>
      cases f2 with
      | zero => simp at h2
      | succ g =>
        cases n with
        | zero => rfl
        | succ n' =>
          simp only [pyReplaceNEF]
          have hlen : s'.length ≤ f := by simpa using h1
          have hlen2 : s'.length ≤ g := by simpa using h2
          split
          · rename_i hp
            have hdrop : ((c :: s').drop old.length).length ≤ s'.length := by
              have h3 : 1 ≤ old.length := by
                cases old with
                | nil => exact absurd rfl ho
                | cons _ _ => simp
              simp only [List.length_drop, List.length_cons]
              omega
            rw [ih g _ _ (le_trans hdrop hlen) (le_trans hdrop hlen2)]
          · rw [ih g _ _ hlen hlen2]

theorem pyReplace_first {old new s : Str} {k n : Nat} (ho : old ≠ [])
    (h : firstMatchPos old s = some k) :
    pyReplace s old new (n + 1) =
      s.take k ++ new ++ pyReplace (s.drop (k + old.length)) old new n := by
  unfold pyReplace
  rw [if_neg ho, if_neg ho]
  induction s generalizing k with
  | nil => simp [firstMatchPos] at h
  | cons c s' ih =>
    simp only [firstMatchPos] at h
    split at h
    · rename_i hp
      cases h
      simp only [List.length_cons, pyReplaceNEF, if_pos hp, Nat.zero_add, List.take_zero,
        List.nil_append]
      congr 1
      exact pyReplaceNEF_fuel ho _ _ _ _
        (by
          have h3 : 1 ≤ old.length := by
            cases old with
            | nil => exact absurd rfl ho
            | cons _ _ => simp
          simp only [List.length_drop, List.length_cons]
          omega)
        le_rfl
    · rename_i hp
      cases hk : firstMatchPos old s' with
      | none => rw [hk] at h; simp at h
      | some k' =>
        rw [hk] at h
        simp at h
        subst h
        have hdrop : List.drop (k' + 1 + old.length) (c :: s') =
            List.drop (k' + old.length) s' := by
          have h4 : k' + 1 + old.length = (k' + old.length) + 1 := by omega
          rw [h4, List.drop_succ_cons]
        simp only [List.length_cons, pyReplaceNEF]
        rw [if_neg hp, ih hk, hdrop]
        simp [List.take_succ_cons]

theorem isPrefixOf_eq_append {p s : Str} (h : p.isPrefixOf s = true) :
    s = p ++ s.drop p.length := by
  induction p generalizing s with
  | nil => simp
  | cons c p' ih =>
    cases s with
    | nil => simp [List.isPrefixOf] at h
    | cons d s' =>
      simp only [List.isPrefixOf, Bool.and_eq_true, beq_iff_eq] at h
      obtain ⟨rfl, h2⟩ := h
      simp only [List.length_cons, List.drop_succ_cons, List.cons_append, List.cons.injEq,
        true_and]
      exact ih h2

/-- Fuelled removal of every occurrence of the marker `m`, scanning left to
right (`s.replace(m, "")`); fuel `s.length` suffices. -/
def removeAllF (m : Str) : Nat → Str → Str
  | 0, s => s
  | _ + 1, [] => []
  | fuel + 1, c :: s =>
    if m.isPrefixOf (c :: s) && !m.isEmpty then removeAllF m fuel ((c :: s).drop m.length)
    else c :: removeAllF m fuel s

/-- Removal of every occurrence of the marker `m` from `s`. -/
def removeAll (m s : Str) : Str :=
  removeAllF m s.length s

/-- Removal of the three emphasis markers inserted by the highlighting step. -/
def removeMarkers (s : Str) : Str :=
  removeAll bcolors.ENDC (removeAll bcolors.WARNING (removeAll bcolors.BOLD s))

theorem removeAllF_fuel {m : Str} (hm : m ≠ []) :
    ∀ f1 f2 s, s.length ≤ f1 → s.length ≤ f2 → removeAllF m f1 s = removeAllF m f2 s := by
  intro f1
  induction f1 with
  | zero =>
    intro f2 s h1 _
    have hs : s = [] := List.eq_nil_of_length_eq_zero (Nat.le_zero.mp h1)
    subst hs
    cases f2 <;> rfl
  | succ f ih =>
    intro f2 s h1 h2
    cases s with
    | nil => cases f2 <;> rfl
    | cons c s' =>
      cases f2 with
      | zero => simp at h2
      | succ g =>
        simp only [removeAllF]
        have hlen : s'.length ≤ f := by simpa using h1
        have hlen2 : s'.length ≤ g := by simpa using h2
        split
        · rename_i hp
          simp only [Bool.and_eq_true] at hp
          have hdrop : ((c :: s').drop m.length).length ≤ s'.length := by
            have h3 : 1 ≤ m.length := by
              cases m with
              | nil => exact absurd rfl hm
              | cons _ _ => simp
            simp only [List.length_drop, List.length_cons]
            omega
          rw [ih g _ (le_trans hdrop hlen) (le_trans hdrop hlen2)]
        · rw [ih g _ hlen hlen2]

theorem removeAll_nil (m : Str) : removeAll m [] = [] := rfl

theorem removeAll_cons_neg {m : Str} {c : Char} {s : Str}
    (h : m.isPrefixOf (c :: s) = false) : removeAll m (c :: s) = c :: removeAll m s := by
  simp [removeAll, removeAllF, h]

theorem removeAll_cons_ne {m : Str} {c : Char} {s : Str} (hm : m.head? = some ESC)
    (hc : c ≠ ESC) : removeAll m (c :: s) = c :: removeAll m s := by
  cases m with
  | nil => simp at hm
  | cons d m' =>
    simp only [List.head?_cons, Option.some.injEq] at hm
    subst hm
    apply removeAll_cons_neg
    have h1 : (ESC == c) = false := beq_eq_false_iff_ne.mpr (Ne.symm hc)
    simp [List.isPrefixOf, h1]

theorem removeAll_self_append {m : Str} (hm : m ≠ []) (s : Str) :
    removeAll m (m ++ s) = removeAll m s := by
  cases m with
  | nil => exact absurd rfl hm
  | cons d m' =>
    have hpre := isPrefixOf_append_self (d :: m') s
    unfold removeAll
    simp only [List.cons_append, List.length_cons, List.length_append]
    rw [removeAllF]
    simp only [← List.cons_append, hpre, List.isEmpty_cons, Bool.not_false, Bool.and_true,
      if_true]
    rw [show ((d :: m') ++ s).drop (d :: m').length = s from List.drop_left _ _]
    exact removeAllF_fuel hm _ _ _ (by simp [Nat.add_comm]) le_rfl

theorem removeAll_noesc_append {m : Str} (hm : m.head? = some ESC) {u : Str}
    (hu : ∀ c ∈ u, c ≠ ESC) (v : Str) :
    removeAll m (u ++ v) = u ++ removeAll m v := by
  induction u with
  | nil => simp
  | cons c u' ih =>
    have hc : c ≠ ESC := hu c (by simp)
    rw [List.cons_append, removeAll_cons_ne hm hc,
      ih (fun d hd => hu d (by simp [hd]))]
    simp

theorem np_BW (x : Str) : bcolors.BOLD.isPrefixOf (bcolors.WARNING ++ x) = false := by
  have h1 : (('1' : Char) == '9') = false := by decide
  simp [bcolors.BOLD, bcolors.WARNING, List.isPrefixOf, h1]

theorem np_BE (x : Str) : bcolors.BOLD.isPrefixOf (bcolors.ENDC ++ x) = false := by
  have h1 : (('1' : Char) == '0') = false := by decide
  simp [bcolors.BOLD, bcolors.ENDC, List.isPrefixOf, h1]

theorem np_WE (x : Str) : bcolors.WARNING.isPrefixOf (bcolors.ENDC ++ x) = false := by
  have h1 : (('9' : Char) == '0') = false := by decide
  simp [bcolors.WARNING, bcolors.ENDC, List.isPrefixOf, h1]

theorem headB : bcolors.BOLD.head? = some ESC := rfl

theorem headW : bcolors.WARNING.head? = some ESC := rfl

theorem headE : bcolors.ENDC.head? = some ESC := rfl

theorem noesc_tailE : ∀ c ∈ ['[', '0', 'm'], c ≠ ESC := by decide

theorem removeAll_B_scan {u : Str} (hu : ∀ c ∈ u, c ≠ ESC) (t : Str) :
    removeAll bcolors.BOLD (bcolors.WARNING ++ u ++ bcolors.ENDC ++ t) =
      bcolors.WARNING ++ u ++ bcolors.ENDC ++ removeAll bcolors.BOLD t := by
  have hE : removeAll bcolors.BOLD (bcolors.ENDC ++ t) =
      bcolors.ENDC ++ removeAll bcolors.BOLD t := by
    have hnp := np_BE t
    rw [show bcolors.ENDC ++ t = ESC :: (['[', '0', 'm'] ++ t) from by
      simp [bcolors.ENDC]] at hnp
    rw [show removeAll bcolors.BOLD (bcolors.ENDC ++ t) =
        removeAll bcolors.BOLD (ESC :: (['[', '0', 'm'] ++ t)) from by simp [bcolors.ENDC]]
    rw [removeAll_cons_neg hnp, removeAll_noesc_append headB noesc_tailE t]
    simp [bcolors.ENDC]
  have hnp := np_BW (u ++ (bcolors.ENDC ++ t))
  rw [show bcolors.WARNING ++ u ++ bcolors.ENDC ++ t =
      ESC :: ((['[', '9', '3', 'm'] ++ u) ++ (bcolors.ENDC ++ t)) from by simp [bcolors.WARNING]]
  rw [show bcolors.WARNING ++ (u ++ (bcolors.ENDC ++ t)) =
      ESC :: ((['[', '9', '3', 'm'] ++ u) ++ (bcolors.ENDC ++ t)) from by
    simp [bcolors.WARNING]] at hnp
  rw [removeAll_cons_neg hnp]
  have hu2 : ∀ c ∈ ['[', '9', '3', 'm'] ++ u, c ≠ ESC := by
    intro c hc
    rcases List.mem_append.mp hc with h | h
    · fin_cases h <;> decide
    · exact hu c h
  rw [removeAll_noesc_append headB hu2 (bcolors.ENDC ++ t), hE]
  simp [bcolors.WARNING]

theorem removeAll_W_scan (v : Str) :
    removeAll bcolors.WARNING (bcolors.ENDC ++ v) =
      bcolors.ENDC ++ removeAll bcolors.WARNING v := by
  have hnp := np_WE v
  rw [show bcolors.ENDC ++ v = ESC :: (['[', '0', 'm'] ++ v) from by
    simp [bcolors.ENDC]] at hnp
  rw [show removeAll bcolors.WARNING (bcolors.ENDC ++ v) =
      removeAll bcolors.WARNING (ESC :: (['[', '0', 'm'] ++ v)) from by simp [bcolors.ENDC]]
  rw [removeAll_cons_neg hnp, removeAll_noesc_append headW noesc_tailE v]
  simp [bcolors.ENDC]

theorem removeMarkers_cons {c : Char} (hc : c ≠ ESC) (t : Str) :
    removeMarkers (c :: t) = c :: removeMarkers t := by
  unfold removeMarkers
  rw [removeAll_cons_ne headB hc, removeAll_cons_ne headW hc, removeAll_cons_ne headE hc]

theorem removeMarkers_wrap {expr : Str} (he : ∀ c ∈ expr, c ≠ ESC) (t : Str) :
    removeMarkers (wrapHl expr ++ t) = expr ++ removeMarkers t := by
  unfold removeMarkers wrapHl
  have s1 : removeAll bcolors.BOLD
      ((bcolors.BOLD ++ bcolors.WARNING ++ expr ++ bcolors.ENDC) ++ t) =
      bcolors.WARNING ++ expr ++ bcolors.ENDC ++ removeAll bcolors.BOLD t := by
    rw [show (bcolors.BOLD ++ bcolors.WARNING ++ expr ++ bcolors.ENDC) ++ t =
        bcolors.BOLD ++ (bcolors.WARNING ++ expr ++ bcolors.ENDC ++ t) from by simp]
    rw [removeAll_self_append (by simp [bcolors.BOLD])]
    exact removeAll_B_scan he t
  rw [s1]
  have s2 : removeAll bcolors.WARNING
      (bcolors.WARNING ++ expr ++ bcolors.ENDC ++ removeAll bcolors.BOLD t) =
      expr ++ (bcolors.ENDC ++ removeAll bcolors.WARNING (removeAll bcolors.BOLD t)) := by
    rw [show bcolors.WARNING ++ expr ++ bcolors.ENDC ++ removeAll bcolors.BOLD t =
        bcolors.WARNING ++ (expr ++ (bcolors.ENDC ++ removeAll bcolors.BOLD t)) from by simp]
    rw [removeAll_self_append (by simp [bcolors.WARNING])]
    rw [removeAll_noesc_append headW he]
    rw [removeAll_W_scan]
  rw [s2]
  rw [removeAll_noesc_append headE he]
  rw [removeAll_self_append (by simp [bcolors.ENDC])]

/-- Relation between a piece of source text and its highlighted rendering:
the rendering is the source with some occurrences of `expr` replaced by
`wrapHl expr`, and the untouched characters are not `ESC`. -/
inductive Hl (expr : Str) : Str → Str → Prop
  | nil : Hl expr [] []
  | cons (c : Char) {s t : Str} : c ≠ ESC → Hl expr s t → Hl expr (c :: s) (c :: t)
  | wrap {s t : Str} : Hl expr s t → Hl expr (expr ++ s) (wrapHl expr ++ t)

theorem hl_refl {expr s : Str} (hs : ∀ c ∈ s, c ≠ ESC) : Hl expr s s := by
  induction s with
  | nil => exact Hl.nil
  | cons c s' ih =>
    exact Hl.cons c (hs c (by simp)) (ih (fun d hd => hs d (by simp [hd])))

theorem hl_removeMarkers {expr s t : Str} (he : ∀ c ∈ expr, c ≠ ESC) (h : Hl expr s t) :
    removeMarkers t = s := by
  induction h with
  | nil => rfl
  | cons c hc _ ih => rw [removeMarkers_cons hc, ih]
  | wrap _ ih => rw [removeMarkers_wrap he, ih]

theorem hl_pyReplaceNEF {expr : Str} (hne : expr ≠ []) :
    ∀ fuel s n, s.length ≤ fuel → (∀ c ∈ s, c ≠ ESC) →
      Hl expr s (pyReplaceNEF expr (wrapHl expr) fuel s n) := by
  intro fuel
  induction fuel with
  | zero =>
    intro s n h1 _
    have hs : s = [] := List.eq_nil_of_length_eq_zero (Nat.le_zero.mp h1)
    subst hs
    exact Hl.nil
  | succ f ih =>
    intro s n h1 hs
    cases s with
    | nil => cases n <;> exact Hl.nil
    | cons c s' =>
      cases n with
      | zero => exact hl_refl hs
      | succ n' =>
        simp only [pyReplaceNEF]
        split
        · rename_i hp
          have hsplit := isPrefixOf_eq_append hp
          have hlen1 : 1 ≤ expr.length := by
            cases expr with
            | nil => exact absurd rfl hne
            | cons _ _ => simp
          have hrest : ((c :: s').drop expr.length).length ≤ f := by
            simp only [List.length_drop, List.length_cons]
            have : s'.length ≤ f := by simpa using h1
            omega
          have hsrest : ∀ d ∈ (c :: s').drop expr.length, d ≠ ESC :=
            fun d hd => hs d (List.drop_subset _ _ hd)
          nth_rewrite 1 [hsplit]
          exact Hl.wrap (ih _ n' hrest hsrest)
        · exact Hl.cons c (hs c (by simp))
            (ih s' (n' + 1) (by simpa using h1) (fun d hd => hs d (by simp [hd])))

theorem hl_pyReplaceEmpty :
    ∀ (s : Str) (n : Nat), (∀ c ∈ s, c ≠ ESC) →
      Hl [] s (pyReplaceEmpty (wrapHl []) s n) := by
  intro s
  induction s with
  | nil =>
    intro n hs
    cases n with
    | zero => exact Hl.nil
    | succ n' =>
      have h1 : Hl [] ([] ++ []) (wrapHl [] ++ []) := Hl.wrap Hl.nil
      simpa [pyReplaceEmpty] using h1
  | cons c s' ih =>
    intro n hs
    cases n with
    | zero => exact hl_refl hs
    | succ n' =>
      have h1 := Hl.wrap
        (Hl.cons c (hs c (by simp)) (ih n' (fun d hd => hs d (by simp [hd]))))
      simpa [pyReplaceEmpty] using h1

theorem hl_pyReplace {expr s : Str} {n : Nat} (hs : ∀ c ∈ s, c ≠ ESC) :
    Hl expr s (pyReplace s expr (wrapHl expr) n) := by
  unfold pyReplace
  by_cases he : expr = []
  · subst he
    simp only [if_pos rfl]
    exact hl_pyReplaceEmpty s n hs
  · rw [if_neg he]
    exact hl_pyReplaceNEF he _ s n le_rfl hs

theorem removeMarkers_pyReplace {expr s : Str} {n : Nat}
    (hs : ∀ c ∈ s, c ≠ ESC) (he : ∀ c ∈ expr, c ≠ ESC) :
    removeMarkers (pyReplace s expr (wrapHl expr) n) = s :=
  hl_removeMarkers he (hl_pyReplace hs)

example :
    removeMarkers
      (pyReplace (("2024-01-01 a boom b boom").toList) (("boom").toList)
        (wrapHl (("boom").toList)) 9999) =
    ("2024-01-01 a boom b boom").toList := by decide

theorem dropWhile_eq_drop_len {α : Type} (p : α → Bool) (l : List α) :
    l.dropWhile p = l.drop (l.takeWhile p).length := by
  induction l with
  | nil => rfl
  | cons c l' ih =>
    by_cases h : p c = true
    · simp [List.dropWhile_cons, List.takeWhile_cons, h, ih]
    · simp [List.dropWhile_cons, List.takeWhile_cons, h]

theorem length_dropWhile_le {α : Type} (p : α → Bool) (l : List α) :
    (l.dropWhile p).length ≤ l.length := by
  rw [dropWhile_eq_drop_len]
  simp

/-- Continuation predicate of the inner `while` loop: a line keeps the loop
running when it is non-empty and does not start a new record. -/
def contP (l : Str) : Bool :=
  !l.isEmpty && !starts20 l

theorem contP_false_iff {l : Str} : contP l = false ↔ l = [] ∨ starts20 l = true := by
  cases l with
  | nil => simp [contP]
  | cons c l' =>
    simp [contP, List.isEmpty_cons]

theorem foldCont_eq (fold : Bool) (cur : Str) (rest : List Str) (n : Nat) :
    foldCont fold cur rest n =
      ⟨cur ++ (if fold then (rest.takeWhile contP).flatten else []),
       rest.dropWhile contP, n + (rest.takeWhile contP).length⟩ := by
  induction rest generalizing cur n with
  | nil => simp [foldCont]
  | cons l rest' ih =>
    by_cases hstop : l = [] ∨ starts20 l = true
    · have hp : contP l = false := contP_false_iff.mpr hstop
      simp [foldCont, hstop, List.takeWhile_cons, List.dropWhile_cons, hp]
    · have hp : contP l = true := by
        cases hcp : contP l with
        | true => rfl
        | false => exact absurd (contP_false_iff.mp hcp) hstop
      rw [foldCont, if_neg hstop, ih]
      cases fold with
      | true =>
        simp [List.takeWhile_cons, List.dropWhile_cons, hp]
        omega
      | false =>
        simp [List.takeWhile_cons, List.dropWhile_cons, hp]
        omega

theorem foldCont_pending_le (fold : Bool) (cur : Str) (rest : List Str) (n : Nat) :
    (foldCont fold cur rest n).pending.length ≤ rest.length := by
  rw [foldCont_eq]
  exact length_dropWhile_le _ _

theorem read_line_fuel_fi (extract : Str → Str) (expr : Str) (fold strict : Bool) (fname : Str) :
    ∀ f1 f2 pending n miss, pending.length ≤ f1 → pending.length ≤ f2 →
      read_line_fuel extract expr fold strict fname f1 pending n miss =
        read_line_fuel extract expr fold strict fname f2 pending n miss := by
  intro f1
  induction f1 with
  | zero =>
    intro f2 pending n miss h1 _
    have hp : pending = [] := List.eq_nil_of_length_eq_zero (Nat.le_zero.mp h1)
    subst hp
    cases f2 <;> rfl
  | succ f ih =>
    intro f2 pending n miss h1 h2
    cases pending with
    | nil => cases f2 <;> rfl
    | cons cur rest =>
      cases f2 with
      | zero => simp at h2
      | succ g =>
        have hl1 : rest.length ≤ f := by simpa using h1
        have hl2 : rest.length ≤ g := by simpa using h2
        by_cases hc : cur = []
        · simp [read_line_fuel, hc]
        · simp only [read_line_fuel, if_neg hc]
          set fr := if starts20 cur then foldCont fold cur rest (n + 1) else
            (⟨cur, rest, n + 1⟩ : FoldRes) with hfr
          have hfp : fr.pending.length ≤ rest.length := by
            rw [hfr]
            split
            · exact foldCont_pending_le _ _ _ _
            · exact le_rfl
          by_cases hm : pyStrip fr.line ≠ [] ∧ strContains expr (pyStrip fr.line) = true
          · rw [if_pos hm, if_pos hm]
            by_cases hk : extract (pyReplace (pyStrip fr.line) expr (wrapHl expr) 9999) ≠ []
            · rw [if_pos hk, if_pos hk]
            · rw [if_neg hk, if_neg hk]
              by_cases hs : strict = true
              · rw [if_pos hs, if_pos hs]
              · rw [if_neg hs, if_neg hs]
                exact ih g fr.pending fr.lineNo _ (le_trans hfp hl1) (le_trans hfp hl2)
          · rw [if_neg hm, if_neg hm]
            exact ih g fr.pending fr.lineNo _ (le_trans hfp hl1) (le_trans hfp hl2)

theorem read_line_core_nil {extract : Str → Str} {expr : Str} {fold strict : Bool}
    {fname : Str} {n : Nat} {miss : List Str} :
    read_line_core extract expr fold strict fname [] n miss = .ok ⟨none, [], n, miss⟩ := rfl

theorem read_line_core_empty_cons {extract : Str → Str} {expr : Str} {fold strict : Bool}
    {fname : Str} {rest : List Str} {n : Nat} {miss : List Str} :
    read_line_core extract expr fold strict fname ([] :: rest) n miss =
      .ok ⟨none, [] :: rest, n, miss⟩ := by
  simp [read_line_core, read_line_fuel]

theorem read_line_core_cons {extract : Str → Str} {expr : Str} {fold strict : Bool}
    {fname cur : Str} {rest : List Str} {n : Nat} {miss : List Str} (hc : cur ≠ []) :
    read_line_core extract expr fold strict fname (cur :: rest) n miss =
      (let fr := if starts20 cur then foldCont fold cur rest (n + 1)
                 else (⟨cur, rest, n + 1⟩ : FoldRes)
       let cur2 := pyStrip fr.line
       if cur2 ≠ [] ∧ strContains expr cur2 = true then
         let hl := pyReplace cur2 expr (wrapHl expr) 9999
         let key := extract hl
         if key ≠ [] then .ok ⟨some (hl, key), fr.pending, fr.lineNo, miss⟩
         else if strict then .error ⟨errMsg fname n hl⟩
         else read_line_core extract expr fold strict fname fr.pending fr.lineNo
           (miss ++ [natStr n ++ (": ").toList ++ hl])
       else read_line_core extract expr fold strict fname fr.pending fr.lineNo miss) := by
  unfold read_line_core
  simp only [List.length_cons, read_line_fuel, if_neg hc]
  set fr := if starts20 cur then foldCont fold cur rest (n + 1) else
    (⟨cur, rest, n + 1⟩ : FoldRes) with hfr
  have hfp : fr.pending.length ≤ rest.length := by
    rw [hfr]
    split
    · exact foldCont_pending_le _ _ _ _
    · exact le_rfl
  by_cases hm : pyStrip fr.line ≠ [] ∧ strContains expr (pyStrip fr.line) = true
  · rw [if_pos hm, if_pos hm]
    by_cases hk : extract (pyReplace (pyStrip fr.line) expr (wrapHl expr) 9999) ≠ []
    · rw [if_pos hk, if_pos hk]
    · rw [if_neg hk, if_neg hk]
      by_cases hs : strict = true
      · rw [if_pos hs, if_pos hs]
      · rw [if_neg hs, if_neg hs]
        exact read_line_fuel_fi _ _ _ _ _ _ _ _ _ _ hfp le_rfl
  · rw [if_neg hm, if_neg hm]
    exact read_line_fuel_fi _ _ _ _ _ _ _ _ _ _ hfp le_rfl

/-- Logical-record text assembled by one iteration of `read_line` for the
record starting at physical line `cur` with following lines `rest`: the
continuation block after a record-start line is folded in when
`full_exceptions` is set, read and discarded otherwise; a line that does not
start with `"20"` is taken alone. -/
def assemble (fold : Bool) (cur : Str) (rest : List Str) : Str :=
  if starts20 cur then cur ++ (if fold then (rest.takeWhile contP).flatten else []) else cur

theorem strContains_wrapHl {expr s : Str} (hs : s ≠ []) (h : strContains expr s = true) :
    strContains (wrapHl expr) (pyReplace s expr (wrapHl expr) 9999) = true := by
  by_cases he : expr = []
  · subst he
    unfold pyReplace
    rw [if_pos rfl]
    cases s with
    | nil => exact absurd rfl hs
    | cons c s' =>
      rw [show (9999 : Nat) = 9998 + 1 from rfl, pyReplaceEmpty]
      exact strContains_of_isPrefixOf (isPrefixOf_append_self _ _)
  · obtain ⟨k, hk⟩ := strContains_fmp he h
    rw [show (9999 : Nat) = 9998 + 1 from rfl, pyReplace_first he hk, List.append_assoc]
    exact strContains_append_right _ (strContains_of_isPrefixOf (isPrefixOf_append_self _ _))

theorem foldCont_shift (fold : Bool) (cur : Str) (rest : List Str) (n : Nat) :
    ∃ d, 1 ≤ d ∧
      (if starts20 cur then foldCont fold cur rest (n + 1)
       else (⟨cur, rest, n + 1⟩ : FoldRes)).pending = (cur :: rest).drop d ∧
      (if starts20 cur then foldCont fold cur rest (n + 1)
       else (⟨cur, rest, n + 1⟩ : FoldRes)).lineNo = n + d ∧
      (if starts20 cur then foldCont fold cur rest (n + 1)
       else (⟨cur, rest, n + 1⟩ : FoldRes)).line = assemble fold cur rest := by
  by_cases h20 : starts20 cur = true
  · refine ⟨1 + (rest.takeWhile contP).length, by omega, ?_, ?_, ?_⟩
    · rw [if_pos h20, foldCont_eq]
      show rest.dropWhile contP = (cur :: rest).drop (1 + (rest.takeWhile contP).length)
      rw [dropWhile_eq_drop_len]
      rw [show 1 + (rest.takeWhile contP).length = (rest.takeWhile contP).length + 1 from by omega]
      simp [List.drop_succ_cons]
    · rw [if_pos h20, foldCont_eq]
      show n + 1 + (rest.takeWhile contP).length = n + (1 + (rest.takeWhile contP).length)
      omega
    · rw [if_pos h20, foldCont_eq]
      show cur ++ (if fold then (rest.takeWhile contP).flatten else []) = assemble fold cur rest
      rw [assemble, if_pos h20]
  · refine ⟨1, le_rfl, ?_, ?_, ?_⟩
    · rw [if_neg h20]
      simp
    · rw [if_neg h20]
    · rw [if_neg h20]
      show cur = assemble fold cur rest
      rw [assemble, if_neg h20]

theorem read_line_core_ok_spec (E : Str → Str) (X : Str) (F S : Bool) (N : Str) :
    ∀ (B : Nat) (pending : List Str) (n : Nat) (miss : List Str) (r : RLRes),
      pending.length ≤ B →
      read_line_core E X F S N pending n miss = .ok r →
      (∀ cl cm, r.found = some (cl, cm) →
        cm ≠ [] ∧ E cl = cm ∧ strContains (wrapHl X) cl = true ∧
          ∃ raw, cl = pyReplace (pyStrip raw) X (wrapHl X) 9999) ∧
      r.pending.length ≤ pending.length ∧
      (r.found.isSome = true → r.pending.length < pending.length) ∧
      (∃ new, r.missing = miss ++ new ∧ ∀ e ∈ new,
        ∃ k cur2 rest2, pending.drop k = cur2 :: rest2 ∧ cur2 ≠ [] ∧
          ∃ hl, e = natStr (n + k) ++ (": ").toList ++ hl ∧ E hl = [] ∧
            hl = pyReplace (pyStrip (assemble F cur2 rest2)) X (wrapHl X) 9999 ∧
            pyStrip (assemble F cur2 rest2) ≠ [] ∧
            strContains X (pyStrip (assemble F cur2 rest2)) = true) := by
  intro B
  induction B with
  | zero =>
    intro pending n miss r hb hr
    have hp : pending = [] := List.eq_nil_of_length_eq_zero (Nat.le_zero.mp hb)
    subst hp
    rw [read_line_core_nil] at hr
    cases hr
    exact ⟨by intro cl cm h; simp at h, le_rfl, by intro h; simp at h,
      ⟨[], by simp, by intro e he; simp at he⟩⟩
  | succ b ih =>
    intro pending n miss r hb hr
    cases pending with
    | nil =>
      rw [read_line_core_nil] at hr
      cases hr
      exact ⟨by intro cl cm h; simp at h, le_rfl, by intro h; simp at h,
        ⟨[], by simp, by intro e he; simp at he⟩⟩
    | cons cur rest =>
      by_cases hc : cur = []
      · subst hc
        rw [read_line_core_empty_cons] at hr
        cases hr
        exact ⟨by intro cl cm h; simp at h, le_rfl, by intro h; simp at h,
          ⟨[], by simp, by intro e he; simp at he⟩⟩
      · rw [read_line_core_cons hc] at hr
        simp only [] at hr
        set fr := if starts20 cur then foldCont F cur rest (n + 1) else
          (⟨cur, rest, n + 1⟩ : FoldRes) with hfr
        obtain ⟨d, hd1, hdp, hdn, hdl⟩ := foldCont_shift F cur rest n
        rw [← hfr] at hdp hdn hdl
        have hfp : fr.pending.length ≤ rest.length := by
          rw [hfr]
          split
          · exact foldCont_pending_le _ _ _ _
          · exact le_rfl
        have hrb : fr.pending.length ≤ b := le_trans hfp (by simpa using hb)
        by_cases hm : pyStrip fr.line ≠ [] ∧ strContains X (pyStrip fr.line) = true
        · rw [if_pos hm] at hr
          by_cases hk : E (pyReplace (pyStrip fr.line) X (wrapHl X) 9999) ≠ []
          · rw [if_pos hk] at hr
            cases hr
            refine ⟨?_, ?_, ?_, ⟨[], by simp, by intro e he; simp at he⟩⟩
            · intro cl cm h
              simp only [Option.some.injEq, Prod.mk.injEq] at h
              obtain ⟨h1, h2⟩ := h
              subst h1
              subst h2
              exact ⟨hk, rfl, strContains_wrapHl hm.1 hm.2, ⟨fr.line, rfl⟩⟩
            · calc fr.pending.length ≤ rest.length := hfp
                _ ≤ (cur :: rest).length := by simp
            · intro _
              calc fr.pending.length ≤ rest.length := hfp
                _ < (cur :: rest).length := by simp
          · rw [if_neg hk] at hr
            by_cases hs : S = true
            · rw [if_pos hs] at hr
              cases hr
            · rw [if_neg hs] at hr
              obtain ⟨hfound, hpen, hpen2, ⟨new, hnew, hent⟩⟩ :=
                ih fr.pending fr.lineNo _ r hrb hr
              refine ⟨hfound, le_trans hpen (le_trans hfp (by simp)),
                fun h => lt_of_lt_of_le (hpen2 h) (le_trans hfp (by simp)), ?_⟩
              refine ⟨(natStr n ++ (": ").toList ++
                pyReplace (pyStrip fr.line) X (wrapHl X) 9999) :: new, by simp [hnew], ?_⟩
              intro e he
              rcases List.mem_cons.mp he with he0 | hem
              · subst he0
                refine ⟨0, cur, rest, by simp, hc, ?_⟩
                refine ⟨pyReplace (pyStrip fr.line) X (wrapHl X) 9999, by simp, ?_, ?_, ?_, ?_⟩
                · simpa using hk
                · rw [hdl]
                · rw [← hdl]; exact hm.1
                · rw [← hdl]; exact hm.2
              · obtain ⟨k, cur2, rest2, hk2, hc2, hl, hee, hE, hhl, hne, hcon⟩ := hent e hem
                refine ⟨d + k, cur2, rest2, ?_, hc2, hl, ?_, hE, hhl, hne, hcon⟩
                · rw [← List.drop_drop, ← hdp]
                  exact hk2
                · rw [hee, hdn, Nat.add_assoc]
        · rw [if_neg hm] at hr
          obtain ⟨hfound, hpen, hpen2, ⟨new, hnew, hent⟩⟩ :=
            ih fr.pending fr.lineNo _ r hrb hr
          refine ⟨hfound, le_trans hpen (le_trans hfp (by simp)),
            fun h => lt_of_lt_of_le (hpen2 h) (le_trans hfp (by simp)), ?_⟩
          refine ⟨new, hnew, ?_⟩
          intro e he
          obtain ⟨k, cur2, rest2, hk2, hc2, hl, hee, hE, hhl, hne, hcon⟩ := hent e he
          refine ⟨d + k, cur2, rest2, ?_, hc2, hl, ?_, hE, hhl, hne, hcon⟩
          · rw [← List.drop_drop, ← hdp]
            exact hk2
          · rw [hee, hdn, Nat.add_assoc]

theorem read_line_core_error_spec (E : Str → Str) (X : Str) (F S : Bool) (N : Str) :
    ∀ (B : Nat) (pending : List Str) (n : Nat) (miss : List Str) (e : MatchKeyMissingError),
      pending.length ≤ B →
      read_line_core E X F S N pending n miss = .error e →
      S = true ∧ ∃ k cur2 rest2, pending.drop k = cur2 :: rest2 ∧ cur2 ≠ [] ∧
        ∃ hl, e.message = errMsg N (n + k) hl ∧ E hl = [] ∧
          hl = pyReplace (pyStrip (assemble F cur2 rest2)) X (wrapHl X) 9999 ∧
          pyStrip (assemble F cur2 rest2) ≠ [] ∧
          strContains X (pyStrip (assemble F cur2 rest2)) = true := by
  intro B
  induction B with
  | zero =>
    intro pending n miss e hb hr
    have hp : pending = [] := List.eq_nil_of_length_eq_zero (Nat.le_zero.mp hb)
    subst hp
    rw [read_line_core_nil] at hr
    simp at hr
  | succ b ih =>
    intro pending n miss e hb hr
    cases pending with
    | nil =>
      rw [read_line_core_nil] at hr
      simp at hr
    | cons cur rest =>
      by_cases hc : cur = []
      · subst hc
        rw [read_line_core_empty_cons] at hr
        simp at hr
      · rw [read_line_core_cons hc] at hr
        simp only [] at hr
        set fr := if starts20 cur then foldCont F cur rest (n + 1) else
          (⟨cur, rest, n + 1⟩ : FoldRes) with hfr
        obtain ⟨d, hd1, hdp, hdn, hdl⟩ := foldCont_shift F cur rest n
        rw [← hfr] at hdp hdn hdl
        have hfp : fr.pending.length ≤ rest.length := by
          rw [hfr]
          split
          · exact foldCont_pending_le _ _ _ _
          · exact le_rfl
        have hrb : fr.pending.length ≤ b := le_trans hfp (by simpa using hb)
        by_cases hm : pyStrip fr.line ≠ [] ∧ strContains X (pyStrip fr.line) = true
        · rw [if_pos hm] at hr
          by_cases hk : E (pyReplace (pyStrip fr.line) X (wrapHl X) 9999) ≠ []
          · rw [if_pos hk] at hr
            simp at hr
          · rw [if_neg hk] at hr
            by_cases hs : S = true
            · rw [if_pos hs] at hr
              simp only [Except.error.injEq] at hr
              subst hr
              refine ⟨hs, 0, cur, rest, by simp, hc, ?_⟩
              refine ⟨pyReplace (pyStrip fr.line) X (wrapHl X) 9999, ?_, ?_, ?_, ?_, ?_⟩
              · simp [Nat.add_zero]
              · simpa using hk
              · rw [hdl]
              · rw [← hdl]; exact hm.1
              · rw [← hdl]; exact hm.2
            · rw [if_neg hs] at hr
              obtain ⟨hS, k, cur2, rest2, hk2, hc2, hl, hee, hE, hhl, hne, hcon⟩ :=
                ih fr.pending fr.lineNo _ e hrb hr
              refine ⟨hS, d + k, cur2, rest2, ?_, hc2, hl, ?_, hE, hhl, hne, hcon⟩
              · rw [← List.drop_drop, ← hdp]
                exact hk2
              · rw [hee, hdn, Nat.add_assoc]
        · rw [if_neg hm] at hr
          obtain ⟨hS, k, cur2, rest2, hk2, hc2, hl, hee, hE, hhl, hne, hcon⟩ :=
            ih fr.pending fr.lineNo _ e hrb hr
          refine ⟨hS, d + k, cur2, rest2, ?_, hc2, hl, ?_, hE, hhl, hne, hcon⟩
          · rw [← List.drop_drop, ← hdp]
            exact hk2
          · rw [hee, hdn, Nat.add_assoc]

theorem LogFile.read_line_spec {lf lf' : LogFile} (h : lf.read_line = .ok lf') :
    lf'.file_name = lf.file_name ∧
    lf'.simple_file_name = lf.simple_file_name ∧
    lf'.search_expression = lf.search_expression ∧
    lf'.full_exceptions = lf.full_exceptions ∧
    lf'.break_on_match_key_missing = lf.break_on_match_key_missing ∧
    lf'.extract_match_key_func = lf.extract_match_key_func ∧
    lf'.pending.length ≤ lf.pending.length ∧
    (lf'.eof = false →
      lf'.pending.length < lf.pending.length ∧
      lf'.current_match ≠ [] ∧
      lf'.extract_match_key_func lf'.current_line = lf'.current_match ∧
      strContains (wrapHl lf.search_expression) lf'.current_line = true ∧
      ∃ raw, lf'.current_line =
        pyReplace (pyStrip raw) lf.search_expression (wrapHl lf.search_expression) 9999) ∧
    (∃ new, lf'.missing_date_lines = lf.missing_date_lines ++ new) := by
  unfold LogFile.read_line at h
  cases hcore : read_line_core lf.extract_match_key_func lf.search_expression
      lf.full_exceptions lf.break_on_match_key_missing lf.file_name lf.pending
      lf.line_number lf.missing_date_lines with
  | error e => rw [hcore] at h; simp at h
  | ok r =>
    rw [hcore] at h
    simp only [Except.ok.injEq] at h
    subst h
    obtain ⟨hfound, hpen, hpen2, ⟨new, hnew, _⟩⟩ :=
      read_line_core_ok_spec lf.extract_match_key_func lf.search_expression
        lf.full_exceptions lf.break_on_match_key_missing lf.file_name
        lf.pending.length lf.pending lf.line_number lf.missing_date_lines r le_rfl hcore
    refine ⟨rfl, rfl, rfl, rfl, rfl, rfl, hpen, ?_, ⟨new, hnew⟩⟩
    intro heof
    cases hf : r.found with
    | none => rw [hf] at heof; simp at heof
    | some p =>
      obtain ⟨cl, cm⟩ := p
      obtain ⟨h1, h2, h3, h4⟩ := hfound cl cm hf
      refine ⟨hpen2 (by rw [hf]; rfl), ?_, ?_, ?_, ?_⟩
      · simpa [hf] using h1
      · simp [hf, h2]
      · simpa [hf] using h3
      · simpa [hf] using h4

/-- Fuelled stream of the keys of the records a source will produce from
its current state: `current_match` followed by the keys after each further
`read_line`, cut off at end of file or at an error. -/
def streamKeysF : Nat → LogFile → List Str
  | 0, _ => []
  | fuel + 1, f =>
    if f.eof = true then []
    else f.current_match ::
      (match f.read_line with
       | .ok f' => streamKeysF fuel f'
       | .error _ => [])

/-- Stream of the keys a source will produce, with sufficient fuel. -/
def streamKeys (f : LogFile) : List Str :=
  streamKeysF (f.pending.length + 1) f

theorem streamKeysF_eof {fuel : Nat} {f : LogFile} (h : f.eof = true) :
    streamKeysF fuel f = [] := by
  cases fuel with
  | zero => rfl
  | succ fu => simp [streamKeysF, h]

theorem streamKeysF_fi :
    ∀ f1 f2 f, f.pending.length < f1 → f.pending.length < f2 →
      streamKeysF f1 f = streamKeysF f2 f := by
  intro f1
  induction f1 with
  | zero => intro f2 f h1 _; omega
  | succ fu ih =>
    intro f2 f h1 h2
    cases f2 with
    | zero => omega
    | succ g =>
      by_cases he : f.eof = true
      · rw [streamKeysF_eof he, streamKeysF_eof he]
      · cases hrl : f.read_line with
        | error e => simp [streamKeysF, he, hrl]
        | ok f' =>
          by_cases he' : f'.eof = true
          · simp [streamKeysF, he, hrl, streamKeysF_eof he']
          · obtain ⟨_, _, _, _, _, _, _, hlt, _⟩ := LogFile.read_line_spec hrl
            obtain ⟨hp, _⟩ := hlt (by simpa using he')
            simp [streamKeysF, he, hrl, ih g f' (by omega) (by omega)]

theorem streamKeys_eof {f : LogFile} (h : f.eof = true) : streamKeys f = [] :=
  streamKeysF_eof h

theorem streamKeys_ok {f f' : LogFile} (he : f.eof = false) (h : f.read_line = .ok f') :
    streamKeys f = f.current_match :: streamKeys f' := by
  unfold streamKeys
  have hL : streamKeysF (f.pending.length + 1) f =
      f.current_match :: streamKeysF f.pending.length f' := by
    simp [streamKeysF, he, h]
  rw [hL]
  by_cases he' : f'.eof = true
  · rw [streamKeysF_eof he', streamKeysF_eof he']
  · obtain ⟨_, _, _, _, _, _, _, hlt, _⟩ := LogFile.read_line_spec h
    obtain ⟨hp, _⟩ := hlt (by simpa using he')
    exact congrArg _
      (streamKeysF_fi f.pending.length (f'.pending.length + 1) f' (by omega) (by omega))

theorem streamKeys_error {f : LogFile} {e : MatchKeyMissingError} (he : f.eof = false)
    (h : f.read_line = .error e) : streamKeys f = [f.current_match] := by
  unfold streamKeys
  simp [streamKeysF, he, h]

theorem strLt_of_lt_of_not_lt {a b c : Str} (h1 : strLt a b = true) (h2 : strLt c b = false) :
    strLt a c = true := by
  cases hac : strLt a c with
  | true => rfl
  | false =>
    exfalso
    cases hca : strLt c a with
    | true =>
      have h3 := strLt_trans hca h1
      rw [h2] at h3
      exact Bool.false_ne_true h3
    | false =>
      have heq : a = c := strLt_eq_of_not hac hca
      subst heq
      rw [h1] at h2
      simp at h2

theorem selectMin_none :
    ∀ (files : List LogFile) (i0 : Nat) (best : Option (Nat × Str)),
      selectMin i0 best files = none → best = none ∧ ∀ f ∈ files, f.eof = true := by
  intro files
  induction files with
  | nil =>
    intro i0 best h
    cases best with
    | none => exact ⟨rfl, by simp⟩
    | some p => simp [selectMin] at h
  | cons f fs ih =>
    intro i0 best h
    rw [selectMin.eq_def] at h
    simp only [] at h
    by_cases he : f.eof = true
    · rw [if_pos he] at h
      obtain ⟨hb, hall⟩ := ih _ _ h
      refine ⟨hb, ?_⟩
      intro g hg
      rcases List.mem_cons.mp hg with hg0 | hm
      · rw [hg0]; exact he
      · exact hall g hm
    · rw [if_neg he] at h
      cases best with
      | none =>
        obtain ⟨hb, _⟩ := ih _ _ h
        simp at hb
      | some p =>
        obtain ⟨bi, bk⟩ := p
        dsimp only at h
        by_cases hlt : strLt f.current_match bk = true
        · rw [if_pos hlt] at h
          obtain ⟨hb, _⟩ := ih _ _ h
          simp at hb
        · rw [if_neg hlt] at h
          obtain ⟨hb, _⟩ := ih _ _ h
          simp at hb

theorem selectMin_some :
    ∀ (files : List LogFile) (i0 : Nat) (best : Option (Nat × Str)) (i : Nat),
      selectMin i0 best files = some i →
      ((∃ bk, best = some (i, bk) ∧
          ∀ j, j < files.length → (files.getD j default).eof = false →
            strLt (files.getD j default).current_match bk = false) ∨
       (∃ j, j < files.length ∧ i = i0 + j ∧ (files.getD j default).eof = false ∧
          (∀ bi bk, best = some (bi, bk) →
            strLt (files.getD j default).current_match bk = true) ∧
          (∀ j2, j2 < files.length → (files.getD j2 default).eof = false →
            strLt (files.getD j2 default).current_match
              (files.getD j default).current_match = false) ∧
          (∀ j2, j2 < j → (files.getD j2 default).eof = false →
            strLt (files.getD j default).current_match
              (files.getD j2 default).current_match = true))) := by
  intro files
  induction files with
  | nil =>
    intro i0 best i h
    cases best with
    | none => simp [selectMin] at h
    | some p =>
      obtain ⟨bi, bk⟩ := p
      simp only [selectMin] at h
      simp only [Option.map_some', Option.some.injEq] at h
      left
      refine ⟨bk, ?_, ?_⟩
      · rw [h]
      · intro j hj
        simp at hj
  | cons f fs ih =>
    intro i0 best i h
    rw [selectMin.eq_def] at h
    dsimp only at h
    by_cases he : f.eof = true
    · rw [if_pos he] at h
      rcases ih (i0 + 1) best i h with ⟨bk, hbest, hmin⟩ | ⟨j, hj, hi, heof, hbl, hmin, hearl⟩
      · left
        refine ⟨bk, hbest, ?_⟩
        intro j hj heof
        cases j with
        | zero =>
          exfalso
          have : f.eof = false := heof
          rw [this] at he
          simp at he
        | succ j' => exact hmin j' (by simpa using hj) heof
      · right
        refine ⟨j + 1, by simpa using hj, by omega, heof, ?_, ?_, ?_⟩
        · intro bi bk hbk
          exact hbl bi bk hbk
        · intro j2 hj2 heof2
          cases j2 with
          | zero =>
            exfalso
            have : f.eof = false := heof2
            rw [this] at he
            simp at he
          | succ j2' => exact hmin j2' (by simpa using hj2) heof2
        · intro j2 hj2 heof2
          cases j2 with
          | zero =>
            exfalso
            have : f.eof = false := heof2
            rw [this] at he
            simp at he
          | succ j2' => exact hearl j2' (by omega) heof2
    · rw [if_neg he] at h
      have heF : f.eof = false := by simpa using he
      cases best with
      | none =>
        dsimp only at h
        rcases ih (i0 + 1) (some (i0, f.current_match)) i h with
          ⟨bk, hbest, hmin⟩ | ⟨j, hj, hi, heof, hbl, hmin, hearl⟩
        · simp only [Option.some.injEq, Prod.mk.injEq] at hbest
          obtain ⟨hbi, hbk⟩ := hbest
          right
          refine ⟨0, by simp, by omega, heF, ?_, ?_, ?_⟩
          · intro bi bk2 hbk2
            simp at hbk2
          · intro j2 hj2 heof2
            cases j2 with
            | zero => exact strLt_irrefl _
            | succ j2' =>
              have h9 := hmin j2' (by simpa using hj2) heof2
              rw [← hbk] at h9
              exact h9
          · intro j2 hj2 _
            omega
        · have hlt0 : strLt (fs.getD j default).current_match f.current_match = true :=
            hbl i0 f.current_match rfl
          right
          refine ⟨j + 1, by simpa using hj, by omega, heof, ?_, ?_, ?_⟩
          · intro bi bk hbk
            simp at hbk
          · intro j2 hj2 heof2
            cases j2 with
            | zero => exact strLt_asymm hlt0
            | succ j2' => exact hmin j2' (by simpa using hj2) heof2
          · intro j2 hj2 heof2
            cases j2 with
            | zero => exact hlt0
            | succ j2' => exact hearl j2' (by omega) heof2
      | some p =>
        obtain ⟨bi, bk⟩ := p
        dsimp only at h
        by_cases hlt : strLt f.current_match bk = true
        · rw [if_pos hlt] at h
          rcases ih (i0 + 1) (some (i0, f.current_match)) i h with
            ⟨bk2, hbest, hmin⟩ | ⟨j, hj, hi, heof, hbl, hmin, hearl⟩
          · simp only [Option.some.injEq, Prod.mk.injEq] at hbest
            obtain ⟨hbi, hbk⟩ := hbest
            right
            refine ⟨0, by simp, by omega, heF, ?_, ?_, ?_⟩
            · intro bi2 bk3 hbk3
              simp only [Option.some.injEq, Prod.mk.injEq] at hbk3
              rw [← hbk3.2]
              exact hlt
            · intro j2 hj2 heof2
              cases j2 with
              | zero => exact strLt_irrefl _
              | succ j2' =>
                have h9 := hmin j2' (by simpa using hj2) heof2
                rw [← hbk] at h9
                exact h9
            · intro j2 hj2 _
              omega
          · have hlt0 : strLt (fs.getD j default).current_match f.current_match = true :=
              hbl i0 f.current_match rfl
            right
            refine ⟨j + 1, by simpa using hj, by omega, heof, ?_, ?_, ?_⟩
            · intro bi2 bk3 hbk3
              simp only [Option.some.injEq, Prod.mk.injEq] at hbk3
              rw [← hbk3.2]
              exact strLt_trans hlt0 hlt
            · intro j2 hj2 heof2
              cases j2 with
              | zero => exact strLt_asymm hlt0
              | succ j2' => exact hmin j2' (by simpa using hj2) heof2
            · intro j2 hj2 heof2
              cases j2 with
              | zero => exact hlt0
              | succ j2' => exact hearl j2' (by omega) heof2
        · rw [if_neg hlt] at h
          have hltF : strLt f.current_match bk = false := by simpa using hlt
          rcases ih (i0 + 1) (some (bi, bk)) i h with
            ⟨bk2, hbest, hmin⟩ | ⟨j, hj, hi, heof, hbl, hmin, hearl⟩
          · simp only [Option.some.injEq, Prod.mk.injEq] at hbest
            obtain ⟨hbi, hbk⟩ := hbest
            left
            refine ⟨bk, by rw [hbi], ?_⟩
            intro j hj heof
            cases j with
            | zero => exact hltF
            | succ j' =>
              have h9 := hmin j' (by simpa using hj) heof
              rw [← hbk] at h9
              exact h9
          · have hkb : strLt (fs.getD j default).current_match bk = true := hbl bi bk rfl
            right
            refine ⟨j + 1, by simpa using hj, by omega, heof, ?_, ?_, ?_⟩
            · intro bi2 bk3 hbk3
              simp only [Option.some.injEq, Prod.mk.injEq] at hbk3
              rw [← hbk3.2]
              exact hkb
            · intro j2 hj2 heof2
              cases j2 with
              | zero =>
                cases hx : strLt f.current_match (fs.getD j default).current_match with
                | false => exact hx
                | true =>
                  exfalso
                  have h3 := strLt_trans hx hkb
                  rw [hltF] at h3
                  exact Bool.false_ne_true h3
              | succ j2' => exact hmin j2' (by simpa using hj2) heof2
            · intro j2 hj2 heof2
              cases j2 with
              | zero => exact strLt_of_lt_of_not_lt hkb hltF
              | succ j2' => exact hearl j2' (by omega) heof2

theorem selectMin_top {files : List LogFile} {i : Nat} (h : selectMin 0 none files = some i) :
    i < files.length ∧ (files.getD i default).eof = false ∧
    (∀ j, j < files.length → (files.getD j default).eof = false →
      strLt (files.getD j default).current_match (files.getD i default).current_match = false) ∧
    (∀ j, j < i → (files.getD j default).eof = false →
      strLt (files.getD i default).current_match (files.getD j default).current_match = true) := by
  rcases selectMin_some files 0 none i h with ⟨bk, hbest, _⟩ | ⟨j, hj, hi, heof, _, hmin, hearl⟩
  · simp at hbest
  · have hij : i = j := by omega
    subst hij
    exact ⟨hj, heof, hmin, hearl⟩

theorem strLt_nil (a : Str) : strLt a [] = false := by
  cases a <;> rfl

theorem totalWeight_set_lt :
    ∀ (files : List LogFile) (i : Nat) (f' : LogFile), i < files.length →
      lfWeight f' < lfWeight (files.getD i default) →
      totalWeight (files.set i f') < totalWeight files := by
  intro files
  induction files with
  | nil => intro i f' hi _; simp at hi
  | cons g fs ih =>
    intro i f' hi hw
    cases i with
    | zero =>
      simp only [List.set_cons_zero, totalWeight, List.map_cons, List.sum_cons]
      have : lfWeight f' < lfWeight g := hw
      omega
    | succ i' =>
      simp only [List.set_cons_succ, totalWeight, List.map_cons, List.sum_cons]
      have := ih i' f' (by simpa using hi) hw
      simp only [totalWeight] at this
      omega

theorem lfWeight_read_line {f f' : LogFile} (he : f.eof = false) (h : f.read_line = .ok f') :
    lfWeight f' < lfWeight f := by
  obtain ⟨_, _, _, _, _, _, hle, hlt, _⟩ := LogFile.read_line_spec h
  by_cases he' : f'.eof = true
  · simp [lfWeight, he, he']
  · obtain ⟨hp, _⟩ := hlt (by simpa using he')
    simp only [lfWeight, he, he']
    simp
    omega

theorem streamKeys_head_open {f : LogFile} (he : f.eof = false) :
    ∃ t, streamKeys f = f.current_match :: t := by
  cases hrl : f.read_line with
  | ok f' => exact ⟨streamKeys f', streamKeys_ok he hrl⟩
  | error e => exact ⟨[], streamKeys_error he hrl⟩

instance : IsTrans Str strLe := ⟨fun _ _ _ => strLe_trans⟩

theorem merge_emitted_sorted_aux :
    ∀ (fuel : Nat) (showName : Bool) (files : List LogFile) (lb : Str),
      (∀ f ∈ files, f.eof = false →
        strLt f.current_match lb = false ∧ List.Chain' strLe (streamKeys f)) →
      List.Chain' strLe (lb :: (merge_loop_fuel showName fuel files).1.map Prod.fst) := by
  intro fuel
  induction fuel with
  | zero => intro showName files lb _; simp [merge_loop_fuel]
  | succ fu ih =>
    intro showName files lb hinv
    rw [merge_loop_fuel.eq_def]
    dsimp only
    cases hsel : selectMin 0 none files with
    | none => simp
    | some i =>
      obtain ⟨hi, heof, hmin, _⟩ := selectMin_top hsel
      have hmem : files.getD i default ∈ files := by
        rw [List.getD_eq_getElem _ _ hi]
        exact List.getElem_mem hi
      obtain ⟨hlb, hchain⟩ := hinv _ hmem heof
      cases hrl : (files.getD i default).read_line with
      | error e =>
        simp only [hrl]
        exact List.chain'_cons.mpr ⟨hlb, List.chain'_singleton _⟩
      | ok f' =>
        simp only [hrl]
        rw [List.map_cons, List.chain'_cons]
        refine ⟨hlb, ?_⟩
        apply ih
        intro g hg hgo
        rcases List.mem_or_eq_of_mem_set hg with hg2 | hg2
        · constructor
          · obtain ⟨j, hjl, hj⟩ := List.mem_iff_getElem.mp hg2
            have : files.getD j default = g := by
              rw [List.getD_eq_getElem _ _ hjl]
              exact hj
            rw [← this]
            exact hmin j hjl (by rw [this]; exact hgo)
          · exact (hinv g hg2 hgo).2
        · subst hg2
          have hstep := streamKeys_ok heof hrl
          rw [hstep] at hchain
          constructor
          · obtain ⟨t, ht⟩ := streamKeys_head_open hgo
            rw [ht] at hchain
            exact (List.chain'_cons.mp hchain).1
          · exact hchain.tail

theorem pmdlAux_true (files : List LogFile) :
    pmdlAux true files =
      files.foldr (fun f acc =>
        (if f.missing_date_lines.isEmpty then [] else
          ((("File: ").toList ++ f.file_name) ::
            f.missing_date_lines.map (fun l => ("  Line  ").toList ++ l))) ++ acc) [] := by
  induction files with
  | nil => rfl
  | cons f fs ih =>
    rw [pmdlAux]
    by_cases hm : f.missing_date_lines.isEmpty
    · have hnil : f.missing_date_lines = [] := List.isEmpty_iff.mp hm
      have hlen : ¬ 0 < f.missing_date_lines.length := by simp [hnil]
      rw [if_neg hlen, ih]
      simp [hnil]
    · have hnil : f.missing_date_lines ≠ [] := by
        simpa [List.isEmpty_iff] using hm
      have hlen : 0 < f.missing_date_lines.length := by
        cases hml : f.missing_date_lines with
        | nil => exact absurd hml hnil
        | cons a b => simp
      rw [if_pos hlen, ih]
      simp [hnil]

theorem print_missing_date_lines_eq (files : List LogFile) :
    print_missing_date_lines files =
      (if files.all (fun f => f.missing_date_lines.isEmpty) then [] else [mmHeader]) ++
        files.foldr (fun f acc =>
          (if f.missing_date_lines.isEmpty then [] else
            ((("File: ").toList ++ f.file_name) ::
              f.missing_date_lines.map (fun l => ("  Line  ").toList ++ l))) ++ acc) [] := by
  unfold print_missing_date_lines
  induction files with
  | nil => rfl
  | cons f fs ih =>
    rw [pmdlAux]
    by_cases hm : f.missing_date_lines.isEmpty
    · have hnil : f.missing_date_lines = [] := List.isEmpty_iff.mp hm
      have hlen : ¬ 0 < f.missing_date_lines.length := by simp [hnil]
      rw [if_neg hlen, ih]
      simp [hnil]
    · have hnil : f.missing_date_lines ≠ [] := by
        simpa [List.isEmpty_iff] using hm
      have hlen : 0 < f.missing_date_lines.length := by
        cases hml : f.missing_date_lines with
        | nil => exact absurd hml hnil
        | cons a b => simp
      rw [if_pos hlen]
      have hall : (f :: fs).all (fun f => f.missing_date_lines.isEmpty) = false := by
        simp only [List.all_cons, Bool.and_eq_false_iff]
        left
        simpa using hm
      rw [hall]
      simp only [if_false, Bool.false_eq_true]
      rw [pmdlAux_true]
      simp [hnil]

theorem LogFile.init_file_name {name : Str} {extract : Str → Str} {expr : Str}
    {fold strict : Bool} {content : List Str} {lf : LogFile}
    (h : LogFile.init name extract expr fold strict content = .ok lf) :
    lf.file_name = name := by
  unfold LogFile.init at h
  obtain ⟨h1, _⟩ := LogFile.read_line_spec h
  exact h1

theorem openAll_opened_isPrefix (extract : Str → Str) (expr : Str) (fold strict : Bool) :
    ∀ files : List (Str × List Str),
      (openAll extract expr fold strict files).1 <+: files.map Prod.fst := by
  intro files
  induction files with
  | nil => simp [openAll]
  | cons p rest ih =>
    obtain ⟨name, content⟩ := p
    rw [openAll]
    cases hinit : LogFile.init name extract expr fold strict content with
    | error e => exact ⟨(rest.map Prod.fst), rfl⟩
    | ok lf =>
      dsimp only
      rw [List.map_cons]
      exact (List.prefix_cons_inj name).mpr ih

theorem openAll_ok (extract : Str → Str) (expr : Str) (fold strict : Bool) :
    ∀ (files : List (Str × List Str)) (ns : List Str) (lfs : List LogFile),
      openAll extract expr fold strict files = (ns, .ok lfs) →
      ns = files.map Prod.fst ∧ lfs.map (fun lf => lf.file_name) = files.map Prod.fst := by
  intro files
  induction files with
  | nil =>
    intro ns lfs h
    rw [openAll] at h
    simp only [Prod.mk.injEq, Except.ok.injEq] at h
    obtain ⟨h1, h2⟩ := h
    subst h1
    subst h2
    simp
  | cons p rest ih =>
    obtain ⟨name, content⟩ := p
    intro ns lfs h
    rw [openAll] at h
    cases hinit : LogFile.init name extract expr fold strict content with
    | error e =>
      rw [hinit] at h
      simp at h
    | ok lf =>
      rw [hinit] at h
      dsimp only at h
      cases hr : (openAll extract expr fold strict rest).2 with
      | error e =>
        rw [hr] at h
        simp [Except.map] at h
      | ok tl =>
        rw [hr] at h
        simp only [Except.map, Prod.mk.injEq, Except.ok.injEq] at h
        obtain ⟨h1, h2⟩ := h
        subst h1
        subst h2
        have hrec := ih (openAll extract expr fold strict rest).1 tl
          (by rw [← hr])
        obtain ⟨hn, hf⟩ := hrec
        simp only [List.map_cons]
        constructor
        · rw [hn]
        · rw [hf, LogFile.init_file_name hinit]

instance : IsTrans (Str × List Str) nameLe :=
  ⟨fun _ _ _ h1 h2 => strLe_trans h1 h2⟩

instance : IsTotal (Str × List Str) nameLe :=
  ⟨fun a b => by
    unfold nameLe
    rcases strLe_total a.1 b.1 with h | h
    · exact Or.inl h
    · exact Or.inr h⟩

theorem sortFiles_sorted (files : List (Str × List Str)) :
    List.Sorted nameLe (sortFiles files) :=
  List.sorted_insertionSort nameLe files

theorem tsClass_esc (i : Nat) : tsClass i ESC = false := by
  unfold tsClass
  split_ifs <;> decide

theorem get_date_highlight_breaks {line expr : Str} {k : Nat} (he : expr ≠ [])
    (hk : firstMatchPos expr line = some k) (hk23 : k < 23) :
    get_date (pyReplace line expr (wrapHl expr) 9999) = [] := by
  have hkl : k < line.length := fmp_lt_length he hk
  rw [show (9999 : Nat) = 9998 + 1 from rfl, pyReplace_first he hk, List.append_assoc]
  have hlen : (line.take k).length = k := by
    rw [List.length_take]
    omega
  have hget : (line.take k ++ (wrapHl expr ++
      pyReplace (line.drop (k + expr.length)) expr (wrapHl expr) 9998))[k]? = some ESC := by
    rw [List.getElem?_append_right (by omega)]
    rw [hlen, Nat.sub_self]
    rfl
  have htc : tsCheck (line.take k ++ (wrapHl expr ++
      pyReplace (line.drop (k + expr.length)) expr (wrapHl expr) 9998)) = false := by
    unfold tsCheck
    have hall : ((List.range 23).all fun i =>
        match (line.take k ++ (wrapHl expr ++
          pyReplace (line.drop (k + expr.length)) expr (wrapHl expr) 9998))[i]? with
        | some c => tsClass i c
        | none => false) = false := by
      rw [List.all_eq_false]
      refine ⟨k, List.mem_range.mpr hk23, ?_⟩
      rw [hget]
      simp [tsClass_esc]
    rw [hall, Bool.and_false]
  simp [get_date, htc]

/-- C4: at every point where `eof` is false — after construction and after
every advance — the current record is populated: `current_line` contains the
highlighted search expression and `current_match` is a non-empty string, so
the source is pre-fetched one record ahead of what has been emitted. -/
theorem prefetch_invariant :
    (∀ (extract : Str → Str) (expr : Str) (fold strict : Bool) (fname : Str)
        (pending : List Str) (n : Nat) (miss : List Str) (r : RLRes),
      read_line_core extract expr fold strict fname pending n miss = .ok r →
      ∀ cl cm, r.found = some (cl, cm) →
        cm ≠ [] ∧ strContains (wrapHl expr) cl = true) ∧
    (∀ (fname : Str) (extract : Str → Str) (expr : Str) (fold strict : Bool)
        (content : List Str) (lf : LogFile),
      LogFile.init fname extract expr fold strict content = .ok lf →
      lf.eof = false →
        lf.current_match ≠ [] ∧ strContains (wrapHl expr) lf.current_line = true) ∧
    (∀ lf lf' : LogFile,
      lf.read_line = .ok lf' →
      lf'.eof = false →
        lf'.current_match ≠ [] ∧
          strContains (wrapHl lf.search_expression) lf'.current_line = true) := by
  have hcore : ∀ (extract : Str → Str) (expr : Str) (fold strict : Bool) (fname : Str)
      (pending : List Str) (n : Nat) (miss : List Str) (r : RLRes),
      read_line_core extract expr fold strict fname pending n miss = .ok r →
      ∀ cl cm, r.found = some (cl, cm) →
        cm ≠ [] ∧ strContains (wrapHl expr) cl = true := by
    intro extract expr fold strict fname pending n miss r hr cl cm hf
    obtain ⟨hfound, _, _, _⟩ :=
      read_line_core_ok_spec extract expr fold strict fname pending.length pending n miss r
        le_rfl hr
    obtain ⟨h1, _, h3, _⟩ := hfound cl cm hf
    exact ⟨h1, h3⟩
  have hwrap : ∀ lf lf' : LogFile,
      lf.read_line = .ok lf' →
      lf'.eof = false →
        lf'.current_match ≠ [] ∧
          strContains (wrapHl lf.search_expression) lf'.current_line = true := by
    intro lf lf' h he
    obtain ⟨_, _, _, _, _, _, _, hopen, _⟩ := LogFile.read_line_spec h
    obtain ⟨_, h1, _, h3, _⟩ := hopen he
    exact ⟨h1, h3⟩
  refine ⟨hcore, ?_, hwrap⟩
  intro fname extract expr fold strict content lf h he
  have := hwrap _ lf h he
  simpa using this

/-- Witness for C4 at a concrete source: a one-line matching file is
pre-fetched with a non-empty key and a highlighted current line. -/
theorem prefetch_invariant_witness :
    ((LogFile.init (("a.log").toList) get_date (("boom").toList) false false
        [("2024-01-01 10:00:00.000 ERROR boom\n").toList]).map
      (fun lf => lf.eof)) = .ok false ∧
    ∀ lf, LogFile.init (("a.log").toList) get_date (("boom").toList) false false
        [("2024-01-01 10:00:00.000 ERROR boom\n").toList] = .ok lf →
      lf.current_match ≠ [] ∧
        strContains (wrapHl (("boom").toList)) lf.current_line = true := by
  refine ⟨by decide, ?_⟩
  intro lf hinit
  have heof : lf.eof = false := by
    have h0 : ((LogFile.init (("a.log").toList) get_date (("boom").toList) false false
        [("2024-01-01 10:00:00.000 ERROR boom\n").toList]).map
      (fun lf => lf.eof)) = .ok false := by decide
    rw [hinit] at h0
    simpa [Except.map] using h0
  exact prefetch_invariant.2.1 (("a.log").toList) get_date (("boom").toList) false false
    [("2024-01-01 10:00:00.000 ERROR boom\n").toList] lf hinit heof

theorem strContains_self (s : Str) : strContains s s = true := by
  have h := strContains_of_isPrefixOf (isPrefixOf_append_self s [])
  simpa using h

theorem errMsg_contains (fname : Str) (m : Nat) (hl : Str) :
    strContains fname (errMsg fname m hl) = true ∧
    strContains (natStr m) (errMsg fname m hl) = true ∧
    strContains hl (errMsg fname m hl) = true := by
  unfold errMsg
  refine ⟨?_, ?_, ?_⟩
  · rw [show ("Cannot extract date: file ").toList ++ fname ++ (", line number ").toList ++
        natStr m ++ (":\n").toList ++ hl =
        ("Cannot extract date: file ").toList ++ (fname ++ ((", line number ").toList ++
          (natStr m ++ ((":\n").toList ++ hl)))) from by simp]
    exact strContains_append_right _ (strContains_of_isPrefixOf (isPrefixOf_append_self _ _))
  · rw [show ("Cannot extract date: file ").toList ++ fname ++ (", line number ").toList ++
        natStr m ++ (":\n").toList ++ hl =
        (("Cannot extract date: file ").toList ++ fname ++ (", line number ").toList) ++
          (natStr m ++ ((":\n").toList ++ hl)) from by simp]
    exact strContains_append_right _ (strContains_of_isPrefixOf (isPrefixOf_append_self _ _))
  · rw [show ("Cannot extract date: file ").toList ++ fname ++ (", line number ").toList ++
        natStr m ++ (":\n").toList ++ hl =
        (("Cannot extract date: file ").toList ++ fname ++ (", line number ").toList ++
          natStr m ++ (":\n").toList) ++ hl from by simp]
    exact strContains_append_right _ (strContains_self hl)

/-- C2: in strict-key mode a matching logical line with an empty key makes
the advance raise `MatchKeyMissingError` whose message carries the file
name, the 1-based physical line number of the record-start line (`n + k`
when `pending` holds the lines from 1-based line `n` and the offending
record starts `k` lines further on) and the offending (highlighted) text;
the run then exits with code 1 and prints nothing beyond the records
emitted before the failure. -/
theorem strict_key_error_spec :
    (∀ (extract : Str → Str) (expr : Str) (fold strict : Bool) (fname : Str)
        (pending : List Str) (n : Nat) (miss : List Str) (e : MatchKeyMissingError),
      read_line_core extract expr fold strict fname pending n miss = .error e →
      strict = true ∧
      ∃ k cur rest2 hl, pending.drop k = cur :: rest2 ∧ cur ≠ [] ∧
        e.message = errMsg fname (n + k) hl ∧
        strContains fname e.message = true ∧
        strContains (natStr (n + k)) e.message = true ∧
        strContains hl e.message = true ∧
        extract hl = [] ∧
        hl = pyReplace (pyStrip (assemble fold cur rest2)) expr (wrapHl expr) 9999 ∧
        strContains expr (pyStrip (assemble fold cur rest2)) = true) ∧
    (∀ (args : Arguments) (files : List (Str × List Str)) (ns : List Str)
        (lfs : List LogFile) (em : List (Str × Str)) (e : MatchKeyMissingError),
      ¬ 20 < (sortFiles files).length →
      openAll get_date args.search_expression args.show_exceptions
        args.break_on_date_missing (sortFiles files) = (ns, .ok lfs) →
      merge_loop args.show_file_name lfs = (em, .error e) →
      (grep_for_logs args files).exitCode = 1 ∧
      (grep_for_logs args files).stdout = em.map Prod.snd) ∧
    (∀ (args : Arguments) (files : List (Str × List Str)) (ns : List Str)
        (e : MatchKeyMissingError),
      ¬ 20 < (sortFiles files).length →
      openAll get_date args.search_expression args.show_exceptions
        args.break_on_date_missing (sortFiles files) = (ns, .error e) →
      (grep_for_logs args files).exitCode = 1 ∧
      (grep_for_logs args files).stdout = []) := by
  refine ⟨?_, ?_, ?_⟩
  · intro extract expr fold strict fname pending n miss e hr
    obtain ⟨hS, k, cur, rest2, hdrop, hc, hl, hmsg, hE, hhl, _, hcon⟩ :=
      read_line_core_error_spec extract expr fold strict fname pending.length pending n miss e
        le_rfl hr
    obtain ⟨m1, m2, m3⟩ := errMsg_contains fname (n + k) hl
    refine ⟨hS, k, cur, rest2, hl, hdrop, hc, hmsg, ?_, ?_, ?_, hE, hhl, hcon⟩
    · rw [hmsg]; exact m1
    · rw [hmsg]; exact m2
    · rw [hmsg]; exact m3
  · intro args files ns lfs em e htm hopen hmerge
    unfold grep_for_logs
    rw [if_neg htm, hopen]
    dsimp only
    rw [hmerge]
    exact ⟨rfl, rfl⟩
  · intro args files ns e htm hopen
    unfold grep_for_logs
    rw [if_neg htm, hopen]
    exact ⟨rfl, rfl⟩

/-- Witness for C2: a strict-key run over the single line `"20 boom\n"`
searched for `"boom"` raises the error, whose message contains the file
name and the line number. -/
theorem strict_key_error_spec_witness :
    ∃ e, read_line_core get_date (("boom").toList) false true (("a.log").toList)
        [("20 boom\n").toList] 1 [] = .error e ∧
      strContains (("a.log").toList) e.message = true := by
  cases hr : read_line_core get_date (("boom").toList) false true (("a.log").toList)
      [("20 boom\n").toList] 1 [] with
  | ok r =>
    exfalso
    have hok : read_line_core get_date (("boom").toList) false true (("a.log").toList)
        [("20 boom\n").toList] 1 [] =
        .error ⟨errMsg (("a.log").toList) 1 ((("20 ").toList) ++
          wrapHl (("boom").toList))⟩ := by decide
    rw [hr] at hok
    simp at hok
  | error e =>
    obtain ⟨_, k, cur, rest2, hl, _, _, _, hcf, _⟩ :=
      strict_key_error_spec.1 get_date (("boom").toList) false true (("a.log").toList)
        [("20 boom\n").toList] 1 [] e hr
    exact ⟨e, rfl, hcf⟩

/-- C5: in non-strict mode a matching logical line with an empty key is
never returned as the current record (every found record's key is
non-empty); it is appended to `missing_date_lines` as
`"{lineNumber}: {highlightedText}"` in encounter order; after normal
completion the summary prints, once, a header and then for each source with
buffered keyless records a `File:` line followed by its buffered entries in
order; the run's stdout is the merged records followed by that summary. -/
theorem keyless_deferred_spec :
    (∀ (extract : Str → Str) (expr : Str) (fold strict : Bool) (fname : Str)
        (pending : List Str) (n : Nat) (miss : List Str) (r : RLRes),
      read_line_core extract expr fold strict fname pending n miss = .ok r →
      (∀ cl cm, r.found = some (cl, cm) → cm ≠ []) ∧
      (∃ new, r.missing = miss ++ new ∧ ∀ e ∈ new,
        ∃ k cur2 rest2 hl, pending.drop k = cur2 :: rest2 ∧ cur2 ≠ [] ∧
          e = natStr (n + k) ++ (": ").toList ++ hl ∧ extract hl = [] ∧
          hl = pyReplace (pyStrip (assemble fold cur2 rest2)) expr (wrapHl expr) 9999 ∧
          strContains expr (pyStrip (assemble fold cur2 rest2)) = true)) ∧
    (∀ files : List LogFile,
      print_missing_date_lines files =
        (if files.all (fun f => f.missing_date_lines.isEmpty) then [] else [mmHeader]) ++
          files.foldr (fun f acc =>
            (if f.missing_date_lines.isEmpty then [] else
              ((("File: ").toList ++ f.file_name) ::
                f.missing_date_lines.map (fun l => ("  Line  ").toList ++ l))) ++ acc) []) ∧
    (∀ (args : Arguments) (files : List (Str × List Str)) (ns : List Str)
        (lfs : List LogFile) (em : List (Str × Str)) (finals : List LogFile),
      ¬ 20 < (sortFiles files).length →
      openAll get_date args.search_expression args.show_exceptions
        args.break_on_date_missing (sortFiles files) = (ns, .ok lfs) →
      merge_loop args.show_file_name lfs = (em, .ok finals) →
      (grep_for_logs args files).stdout =
        em.map Prod.snd ++ print_missing_date_lines finals) := by
  refine ⟨?_, print_missing_date_lines_eq, ?_⟩
  · intro extract expr fold strict fname pending n miss r hr
    obtain ⟨hfound, _, _, ⟨new, hnew, hent⟩⟩ :=
      read_line_core_ok_spec extract expr fold strict fname pending.length pending n miss r
        le_rfl hr
    refine ⟨fun cl cm hf => (hfound cl cm hf).1, ⟨new, hnew, ?_⟩⟩
    intro e he
    obtain ⟨k, cur2, rest2, hk2, hc2, hl, hee, hE, hhl, _, hcon⟩ := hent e he
    exact ⟨k, cur2, rest2, hl, hk2, hc2, hee, hE, hhl, hcon⟩
  · intro args files ns lfs em finals htm hopen hmerge
    unfold grep_for_logs
    rw [if_neg htm, hopen]
    dsimp only
    rw [hmerge]

/-- Witness for C5: the non-strict run over `"20 boom\n"` defers the
keyless match into `missing_date_lines` instead of returning a record. -/
theorem keyless_deferred_spec_witness :
    ∃ r, read_line_core get_date (("boom").toList) false false (("a.log").toList)
        [("20 boom\n").toList] 1 [] = .ok r ∧ ∃ new, r.missing = [] ++ new := by
  cases hr : read_line_core get_date (("boom").toList) false false (("a.log").toList)
      [("20 boom\n").toList] 1 [] with
  | error e =>
    exfalso
    have hok : (read_line_core get_date (("boom").toList) false false (("a.log").toList)
        [("20 boom\n").toList] 1 []).isOk = true := by decide
    rw [hr] at hok
    simp [Except.isOk, Except.toBool] at hok
  | ok r =>
    obtain ⟨_, ⟨new, hnew, _⟩⟩ :=
      keyless_deferred_spec.1 get_date (("boom").toList) false false (("a.log").toList)
        [("20 boom\n").toList] 1 [] r hr
    exact ⟨r, rfl, new, hnew⟩

theorem fmp_contains {old s : Str} {k : Nat} (h : firstMatchPos old s = some k) :
    strContains old s = true := by
  induction s generalizing k with
  | nil => simp [firstMatchPos] at h
  | cons c s' ih =>
    simp only [firstMatchPos] at h
    split at h
    · rename_i hp
      simp [strContains, hp]
    · cases hk : firstMatchPos old s' with
      | none => rw [hk] at h; simp at h
      | some k' => simp [strContains, ih hk]

/-- C10: highlighting runs before key extraction, so when the leftmost
occurrence of the search expression starts inside the leading 23-character
timestamp of a logical line, the highlighted line no longer matches the
date pattern: the raw line has a key but `get_date` of the highlighted line
is empty, making the line fatal in strict mode and deferred to the keyless
summary otherwise. -/
theorem highlight_breaks_timestamp_key :
    ∀ (line expr fname : Str) (k : Nat) (fold : Bool),
      tsCheck line = true →
      firstMatchPos expr line = some k → k < 23 → expr ≠ [] →
      pyStrip line = line →
      (get_date line ≠ [] ∧
       get_date (pyReplace line expr (wrapHl expr) 9999) = [] ∧
       (∃ e, LogFile.init fname get_date expr fold true [line] = .error e ∧
          e.message = errMsg fname 1 (pyReplace line expr (wrapHl expr) 9999)) ∧
       (∃ lf, LogFile.init fname get_date expr fold false [line] = .ok lf ∧
          lf.eof = true ∧
          lf.missing_date_lines =
            [natStr 1 ++ (": ").toList ++ pyReplace line expr (wrapHl expr) 9999])) := by
  intro line expr fname k fold hts hfmp hk23 hexpr hstrip
  have h23 : 23 ≤ line.length := by
    have h' := hts
    unfold tsCheck at h'
    simp only [Bool.and_eq_true, decide_eq_true_eq] at h'
    exact h'.1
  have hne : line ≠ [] := by
    intro h0
    rw [h0] at h23
    simp at h23
  have hcontains : strContains expr line = true := fmp_contains hfmp
  have hkey : get_date (pyReplace line expr (wrapHl expr) 9999) = [] :=
    get_date_highlight_breaks hexpr hfmp hk23
  have hfru : (if starts20 line then foldCont fold line [] 2 else (⟨line, [], 2⟩ : FoldRes)) =
      (⟨line, [], 2⟩ : FoldRes) := by
    split <;> rfl
  have hcore : ∀ strict : Bool,
      read_line_core get_date expr fold strict fname [line] 1 [] =
        (if strict then
          .error ⟨errMsg fname 1 (pyReplace line expr (wrapHl expr) 9999)⟩
        else
          .ok ⟨none, [], 2,
            [natStr 1 ++ (": ").toList ++ pyReplace line expr (wrapHl expr) 9999]⟩) := by
    intro strict
    rw [read_line_core_cons hne]
    dsimp only
    rw [hfru]
    dsimp only
    rw [hstrip]
    rw [if_pos ⟨hne, hcontains⟩]
    rw [if_neg (by simp [hkey])]
    cases strict with
    | true => rw [if_pos rfl]; rfl
    | false =>
      rw [if_neg (by simp)]
      rw [read_line_core_nil]
      simp
  refine ⟨?_, hkey, ?_, ?_⟩
  · unfold get_date
    rw [if_pos hts]
    intro h0
    have hlen0 : (line.take 23).length = 0 := by rw [h0]; rfl
    rw [List.length_take] at hlen0
    omega
  · refine ⟨⟨errMsg fname 1 (pyReplace line expr (wrapHl expr) 9999)⟩, ?_, rfl⟩
    unfold LogFile.init LogFile.read_line
    dsimp only
    rw [hcore true]
    rfl
  · unfold LogFile.init LogFile.read_line
    dsimp only
    rw [hcore false]
    exact ⟨_, rfl, rfl, rfl⟩

/-- Witness for C10: searching `"2024"` in a line with a valid timestamp
makes the highlighted line keyless although the raw line has a key. -/
theorem highlight_breaks_timestamp_key_witness :
    tsCheck (("2024-01-01 10:00:00.000 boom").toList) = true ∧
    firstMatchPos (("2024").toList) (("2024-01-01 10:00:00.000 boom").toList) = some 0 ∧
    get_date (("2024-01-01 10:00:00.000 boom").toList) ≠ [] ∧
    get_date (pyReplace (("2024-01-01 10:00:00.000 boom").toList) (("2024").toList)
      (wrapHl (("2024").toList)) 9999) = [] := by
  refine ⟨by decide, by decide, ?_, ?_⟩
  · exact (highlight_breaks_timestamp_key (("2024-01-01 10:00:00.000 boom").toList)
      (("2024").toList) (("a.log").toList) 0 false (by decide) (by decide) (by decide)
      (by decide) (by decide)).1
  · exact (highlight_breaks_timestamp_key (("2024-01-01 10:00:00.000 boom").toList)
      (("2024").toList) (("a.log").toList) 0 false (by decide) (by decide) (by decide)
      (by decide) (by decide)).2.1

theorem head_dropWhile_not {α : Type} (p : α → Bool) :
    ∀ (l : List α) (x : α), (l.dropWhile p).head? = some x → p x = false := by
  intro l
  induction l with
  | nil => intro x h; simp at h
  | cons c l' ih =>
    intro x h
    rw [List.dropWhile_cons] at h
    by_cases hc : p c = true
    · rw [if_pos hc] at h
      exact ih x h
    · rw [if_neg hc] at h
      simp only [List.head?_cons, Option.some.injEq] at h
      rw [← h]
      simpa using hc

/-- C6 counterexample: the very first physical line of a file that does not
begin with `"20"` is not treated as a continuation — it is stripped,
searched, and recorded as a standalone keyless match. -/
theorem continuation_consumed_cex :
    (LogFile.init (("a.log").toList) get_date (("boom").toList) false false
        [("boom\n").toList]).map (fun lf => lf.missing_date_lines) =
    .ok [("1: ").toList ++ wrapHl (("boom").toList)] := by
  decide

/-- C6 (amended): every physical line that does not begin with `"20"` and
follows a record-start line is consumed by that record's continuation loop
— folded into the record's text when folding is enabled, read and discarded
otherwise — and the next line the reader considers as a record either
begins with `"20"` or is empty (end of file).  Lines before the first
record-start line of a file are instead each treated as standalone
records. -/
theorem continuation_consumed_amended :
    ∀ (fold : Bool) (cur : Str) (rest : List Str) (n : Nat),
      foldCont fold cur rest n =
        ⟨cur ++ (if fold then (rest.takeWhile contP).flatten else []),
         rest.dropWhile contP, n + (rest.takeWhile contP).length⟩ ∧
      (∀ l ∈ rest.takeWhile contP, l ≠ [] ∧ starts20 l = false) ∧
      (∀ l, (rest.dropWhile contP).head? = some l → l = [] ∨ starts20 l = true) := by
  intro fold cur rest n
  refine ⟨foldCont_eq fold cur rest n, ?_, ?_⟩
  · intro l hl
    have hp : contP l = true := List.mem_takeWhile_imp hl
    unfold contP at hp
    simp only [Bool.and_eq_true] at hp
    constructor
    · intro h0
      rw [h0] at hp
      simp at hp
    · rcases hp with ⟨_, h2⟩
      simpa using h2
  · intro l hl
    exact contP_false_iff.mp (head_dropWhile_not contP rest l hl)

/-- Witness for C6 (amended) on a concrete continuation block. -/
theorem continuation_consumed_amended_witness :
    foldCont true (("20a\n").toList) [("b\n").toList, ("20c\n").toList] 2 =
      ⟨("20a\n").toList ++ (("b\n").toList ++ []),
       [("20c\n").toList], 3⟩ ∧
    (("b\n").toList ≠ [] ∧ starts20 (("b\n").toList) = false) := by
  have h := continuation_consumed_amended true (("20a\n").toList)
    [("b\n").toList, ("20c\n").toList] 2
  refine ⟨?_, h.2.1 (("b\n").toList) (by decide)⟩
  have h1 := h.1
  rw [h1]
  decide

theorem contP_of_ne_not20 {l : Str} (h1 : l ≠ []) (h2 : starts20 l = false) :
    contP l = true := by
  unfold contP
  rw [h2]
  cases l with
  | nil => exact absurd rfl h1
  | cons c s => simp

theorem starts20_ne_nil {l : Str} (h : starts20 l = true) : l ≠ [] := by
  intro h0
  rw [h0] at h
  simp [starts20, List.isPrefixOf] at h

/-- C7: for a record-start line followed by two continuation lines, with
folding enabled the produced record's text is the highlighted, stripped
concatenation of all three physical lines; with folding disabled only the
first line's stripped text is used and the two continuation lines are read
and dropped (nothing of the file remains pending). -/
theorem continuation_folding_spec :
    ∀ (fname expr l1 l2 l3 : Str) (extract : Str → Str) (strict : Bool),
      starts20 l1 = true → l2 ≠ [] → starts20 l2 = false → l3 ≠ [] → starts20 l3 = false →
      ((pyStrip (l1 ++ l2 ++ l3) ≠ [] ∧
        strContains expr (pyStrip (l1 ++ l2 ++ l3)) = true ∧
        extract (pyReplace (pyStrip (l1 ++ l2 ++ l3)) expr (wrapHl expr) 9999) ≠ []) →
        (LogFile.init fname extract expr true strict [l1, l2, l3]).map
          (fun lf => (lf.current_line, lf.eof, lf.pending)) =
        .ok (pyReplace (pyStrip (l1 ++ l2 ++ l3)) expr (wrapHl expr) 9999, false, [])) ∧
      ((pyStrip l1 ≠ [] ∧ strContains expr (pyStrip l1) = true ∧
        extract (pyReplace (pyStrip l1) expr (wrapHl expr) 9999) ≠ []) →
        (LogFile.init fname extract expr false strict [l1, l2, l3]).map
          (fun lf => (lf.current_line, lf.eof, lf.pending)) =
        .ok (pyReplace (pyStrip l1) expr (wrapHl expr) 9999, false, [])) := by
  intro fname expr l1 l2 l3 extract strict hs1 hn2 hs2 hn3 hs3
  have hne1 : l1 ≠ [] := starts20_ne_nil hs1
  have hc2 : contP l2 = true := contP_of_ne_not20 hn2 hs2
  have hc3 : contP l3 = true := contP_of_ne_not20 hn3 hs3
  constructor
  · intro ⟨hm1, hm2, hm3⟩
    have hA : foldCont true l1 [l2, l3] (1 + 1) = ⟨l1 ++ l2 ++ l3, [], 4⟩ := by
      rw [foldCont_eq]
      simp [List.takeWhile_cons, hc2, hc3, List.dropWhile_cons]
    have hcore : read_line_core extract expr true strict fname [l1, l2, l3] 1 [] =
        .ok ⟨some (pyReplace (pyStrip (l1 ++ l2 ++ l3)) expr (wrapHl expr) 9999,
          extract (pyReplace (pyStrip (l1 ++ l2 ++ l3)) expr (wrapHl expr) 9999)), [], 4, []⟩ := by
      rw [read_line_core_cons hne1]
      dsimp only
      rw [if_pos hs1, hA]
      dsimp only
      rw [if_pos ⟨hm1, hm2⟩, if_pos hm3]
    unfold LogFile.init LogFile.read_line
    dsimp only
    rw [hcore]
    rfl
  · intro ⟨hm1, hm2, hm3⟩
    have hA : foldCont false l1 [l2, l3] (1 + 1) = ⟨l1, [], 4⟩ := by
      rw [foldCont_eq]
      simp [List.takeWhile_cons, hc2, hc3, List.dropWhile_cons]
    have hcore : read_line_core extract expr false strict fname [l1, l2, l3] 1 [] =
        .ok ⟨some (pyReplace (pyStrip l1) expr (wrapHl expr) 9999,
          extract (pyReplace (pyStrip l1) expr (wrapHl expr) 9999)), [], 4, []⟩ := by
      rw [read_line_core_cons hne1]
      dsimp only
      rw [if_pos hs1, hA]
      dsimp only
      rw [if_pos ⟨hm1, hm2⟩, if_pos hm3]
    unfold LogFile.init LogFile.read_line
    dsimp only
    rw [hcore]
    rfl

/-- Witness for C7 on a concrete three-line file. -/
theorem continuation_folding_spec_witness :
    (LogFile.init (("a.log").toList) (fun _ => [Char.ofNat 107]) (("boom").toList) true false
        [("20x boom\n").toList, ("a\n").toList, ("b\n").toList]).map
      (fun lf => (lf.current_line, lf.eof, lf.pending)) =
    .ok (pyReplace (pyStrip (("20x boom\n").toList ++ ("a\n").toList ++ ("b\n").toList))
      (("boom").toList) (wrapHl (("boom").toList)) 9999, false, []) := by
  exact (continuation_folding_spec (("a.log").toList) (("boom").toList) (("20x boom\n").toList)
    (("a\n").toList) (("b\n").toList) (fun _ => [Char.ofNat 107]) false
    (by decide) (by decide) (by decide) (by decide) (by decide)).1
    (by refine ⟨by decide, by decide, by decide⟩)

/-- Arguments of the C3 counterexample run: strict-key search for `"x"`. -/
def argsCexC3 : Arguments := ⟨("x").toList, false, false, true⟩

/-- Files of the C3 counterexample run: `a.log` constructs fine, the first
matching line of `b.log` is keyless, so its constructor pre-fetch raises. -/
def filesCexC3 : List (Str × List Str) :=
  [(("a.log").toList, [("2024-01-01 00:00:00.000 x\n").toList]),
   (("b.log").toList, [("20 x\n").toList])]

/-- C3 counterexample: when `MatchKeyMissingError` is raised during the
constructor pre-fetch (the `for` loop sits outside the `try`/`finally`),
the run exits with both already-opened handles never closed. -/
theorem handles_closed_cex :
    (grep_for_logs argsCexC3 filesCexC3).opened =
      [("a.log").toList, ("b.log").toList] ∧
    (grep_for_logs argsCexC3 filesCexC3).closed = [] ∧
    (grep_for_logs argsCexC3 filesCexC3).exitCode = 1 := by
  decide

/-- C3 (amended): every file handle that was opened is closed before exit
on normal completion and when `MatchKeyMissingError` is raised inside the
merge loop (the `finally` clause); but when source construction fails, the
run exits with code 1 without closing any of the handles it opened. -/
theorem handles_closed_amended :
    ∀ (args : Arguments) (files : List (Str × List Str)),
      ((grep_for_logs args files).closed = (grep_for_logs args files).opened ∨
        ((grep_for_logs args files).closed = [] ∧
          (grep_for_logs args files).exitCode = 1)) ∧
      (∀ ns lfs, openAll get_date args.search_expression args.show_exceptions
          args.break_on_date_missing (sortFiles files) = (ns, .ok lfs) →
        (grep_for_logs args files).closed = (grep_for_logs args files).opened) := by
  intro args files
  unfold grep_for_logs
  by_cases htm : 20 < (sortFiles files).length
  · rw [if_pos htm]
    exact ⟨Or.inl rfl, fun ns lfs _ => rfl⟩
  · rw [if_neg htm]
    rcases hx : openAll get_date args.search_expression args.show_exceptions
        args.break_on_date_missing (sortFiles files) with ⟨ns0, res0⟩
    cases res0 with
    | error e =>
      dsimp only
      refine ⟨Or.inr ⟨rfl, rfl⟩, ?_⟩
      intro ns lfs h
      simp at h
    | ok lfs0 =>
      dsimp only
      obtain ⟨hn, hf⟩ := openAll_ok get_date args.search_expression args.show_exceptions
        args.break_on_date_missing (sortFiles files) ns0 lfs0 hx
      cases hm : (merge_loop args.show_file_name lfs0).2 with
      | ok finals =>
        dsimp only
        refine ⟨Or.inl ?_, fun _ _ _ => ?_⟩ <;>
          rw [hf, hn]
      | error e =>
        dsimp only
        refine ⟨Or.inl ?_, fun _ _ _ => ?_⟩ <;>
          rw [hf, hn]

/-- Witness for C3 (amended): a run whose construction succeeds closes
exactly what it opened. -/
theorem handles_closed_amended_witness :
    (grep_for_logs ⟨("x").toList, false, false, false⟩
        [(("a.log").toList, [("2024-01-01 00:00:00.000 x\n").toList])]).closed =
    (grep_for_logs ⟨("x").toList, false, false, false⟩
        [(("a.log").toList, [("2024-01-01 00:00:00.000 x\n").toList])]).opened := by
  rcases hx : openAll get_date (⟨("x").toList, false, false, false⟩ : Arguments).search_expression
      (⟨("x").toList, false, false, false⟩ : Arguments).show_exceptions
      (⟨("x").toList, false, false, false⟩ : Arguments).break_on_date_missing
      (sortFiles [(("a.log").toList, [("2024-01-01 00:00:00.000 x\n").toList])]) with
    ⟨ns0, res0⟩
  cases res0 with
  | error e =>
    exfalso
    have hok : (openAll get_date (("x").toList) false false
        (sortFiles [(("a.log").toList,
          [("2024-01-01 00:00:00.000 x\n").toList])])).2.isOk = true := by decide
    rw [hx] at hok
    simp [Except.isOk, Except.toBool] at hok
  | ok lfs0 =>
    exact (handles_closed_amended ⟨("x").toList, false, false, false⟩
      [(("a.log").toList, [("2024-01-01 00:00:00.000 x\n").toList])]).2 ns0 lfs0 hx

/-- C8 counterexample: a source line that already contains an ANSI escape
sequence is emitted as a record, but removing all emphasis markers from the
emitted text also removes the raw escape sequence, so the result differs
from the trimmed logical line assembled from the file. -/
theorem highlight_preserves_content_cex :
    (LogFile.init (("a.log").toList) get_date (("boom").toList) false false
        [("2024-01-01 10:00:00.000 \x1b[1mboom\n").toList]).map
      (fun lf => (lf.eof, decide (removeMarkers lf.current_line =
        pyStrip (("2024-01-01 10:00:00.000 \x1b[1mboom\n").toList)))) =
    .ok (false, false) := by
  decide

/-- C8 (amended): highlighting wraps occurrences of the search expression
(bounded to the first 9999) in the emphasis markers, and — provided neither
the trimmed logical line nor the search expression contains the escape
character `ESC` that begins every marker — removing all emphasis markers
from the emitted text yields exactly the trimmed logical line as assembled
from the source file; every emitted record's text is of that highlighted
form. -/
theorem highlight_preserves_content_amended :
    (∀ (s expr : Str) (n : Nat),
      (∀ c ∈ s, c ≠ ESC) → (∀ c ∈ expr, c ≠ ESC) →
      removeMarkers (pyReplace s expr (wrapHl expr) n) = s) ∧
    (∀ lf lf' : LogFile, lf.read_line = .ok lf' → lf'.eof = false →
      ∃ raw, lf'.current_line =
          pyReplace (pyStrip raw) lf.search_expression (wrapHl lf.search_expression) 9999 ∧
        ((∀ c ∈ pyStrip raw, c ≠ ESC) → (∀ c ∈ lf.search_expression, c ≠ ESC) →
          removeMarkers lf'.current_line = pyStrip raw)) := by
  constructor
  · intro s expr n hs he
    exact removeMarkers_pyReplace hs he
  · intro lf lf' h he
    obtain ⟨_, _, _, _, _, _, _, hopen, _⟩ := LogFile.read_line_spec h
    obtain ⟨_, _, _, _, raw, hraw⟩ := hopen he
    refine ⟨raw, hraw, ?_⟩
    intro h1 h2
    rw [hraw]
    exact removeMarkers_pyReplace h1 h2

/-- Witness for C8 (amended) on a concrete line and expression. -/
theorem highlight_preserves_content_amended_witness :
    removeMarkers (pyReplace (("2024-01-01 a boom").toList) (("boom").toList)
      (wrapHl (("boom").toList)) 9999) = ("2024-01-01 a boom").toList := by
  exact highlight_preserves_content_amended.1 (("2024-01-01 a boom").toList)
    (("boom").toList) 9999 (by decide) (by decide)

instance : DecidableRel strLe := fun a b =>
  inferInstanceAs (Decidable (strLt b a = false))

/-- C9: the run is a pure function of its arguments and file contents, so
running it twice produces identical output; discovered file names are
sorted before opening (the list of opened names is always non-decreasing);
and the merge's selection is a stable minimum — the chosen source's key is
at most every open source's key and strictly below every earlier open
source's key, so ties go to the first-encountered source. -/
theorem deterministic_run_spec :
    (∀ (args : Arguments) (files : List (Str × List Str)),
      grep_for_logs args files = grep_for_logs args files) ∧
    (∀ (args : Arguments) (files : List (Str × List Str)),
      List.Pairwise strLe (grep_for_logs args files).opened) ∧
    (∀ (files : List LogFile) (i : Nat), selectMin 0 none files = some i →
      i < files.length ∧ (files.getD i default).eof = false ∧
      (∀ j, j < files.length → (files.getD j default).eof = false →
        strLt (files.getD j default).current_match
          (files.getD i default).current_match = false) ∧
      (∀ j, j < i → (files.getD j default).eof = false →
        strLt (files.getD i default).current_match
          (files.getD j default).current_match = true)) := by
  refine ⟨fun _ _ => rfl, ?_, fun files i h => selectMin_top h⟩
  intro args files
  have hnames : List.Pairwise strLe ((sortFiles files).map Prod.fst) := by
    rw [List.pairwise_map]
    exact sortFiles_sorted files
  unfold grep_for_logs
  by_cases htm : 20 < (sortFiles files).length
  · rw [if_pos htm]
    simp
  · rw [if_neg htm]
    rcases hx : openAll get_date args.search_expression args.show_exceptions
        args.break_on_date_missing (sortFiles files) with ⟨ns0, res0⟩
    have hpre : ns0 <+: (sortFiles files).map Prod.fst := by
      have h1 := openAll_opened_isPrefix get_date args.search_expression args.show_exceptions
        args.break_on_date_missing (sortFiles files)
      rw [hx] at h1
      exact h1
    have hns : List.Pairwise strLe ns0 := List.Pairwise.sublist hpre.sublist hnames
    cases res0 with
    | error e => exact hns
    | ok lfs0 =>
      dsimp only
      cases hm : (merge_loop args.show_file_name lfs0).2 with
      | ok finals => exact hns
      | error e => exact hns

/-- Witness for C9: with two open sources tied on the same key, the merge
selects the first-encountered one. -/
theorem deterministic_run_spec_witness :
    selectMin 0 none
      [{ file_name := ("a").toList, simple_file_name := ("a").toList,
         search_expression := [], full_exceptions := false,
         break_on_match_key_missing := false, extract_match_key_func := fun _ => [],
         pending := [], line_number := 1, current_line := ("l1").toList,
         current_match := ("k").toList, eof := false, missing_date_lines := [] },
       { file_name := ("b").toList, simple_file_name := ("b").toList,
         search_expression := [], full_exceptions := false,
         break_on_match_key_missing := false, extract_match_key_func := fun _ => [],
         pending := [], line_number := 1, current_line := ("l2").toList,
         current_match := ("k").toList, eof := false, missing_date_lines := [] }] = some 0 ∧
    List.Pairwise strLe (grep_for_logs ⟨("boom").toList, false, false, false⟩
      [(("b.log").toList, []), (("a.log").toList, [])]).opened := by
  constructor
  · have h0 : selectMin 0 none
        [{ file_name := ("a").toList, simple_file_name := ("a").toList,
           search_expression := [], full_exceptions := false,
           break_on_match_key_missing := false, extract_match_key_func := fun _ => [],
           pending := [], line_number := 1, current_line := ("l1").toList,
           current_match := ("k").toList, eof := false, missing_date_lines := [] },
         { file_name := ("b").toList, simple_file_name := ("b").toList,
           search_expression := [], full_exceptions := false,
           break_on_match_key_missing := false, extract_match_key_func := fun _ => [],
           pending := [], line_number := 1, current_line := ("l2").toList,
           current_match := ("k").toList, eof := false, missing_date_lines := [] }] =
       some 0 := by decide
    exact h0
  · exact deterministic_run_spec.2.1 ⟨("boom").toList, false, false, false⟩
      [(("b.log").toList, []), (("a.log").toList, [])]

/-- C1 counterexample: a single input file whose two matching records carry
decreasing timestamps is emitted in file order, so the emitted key sequence
is not non-decreasing — the merge is only sorted when each source is. -/
theorem merge_emission_sorted_cex :
    (LogFile.init (("a.log").toList) get_date (("boom").toList) false false
        [("2024-01-02 00:00:00.000 boom\n").toList,
         ("2024-01-01 00:00:00.000 boom\n").toList]).map
      (fun lf => (merge_loop false [lf]).1.map Prod.fst) =
    .ok [("2024-01-02 00:00:00.000").toList, ("2024-01-01 00:00:00.000").toList] ∧
    strLt (("2024-01-01 00:00:00.000").toList) (("2024-01-02 00:00:00.000").toList) = true ∧
    ¬ List.Pairwise strLe
      [("2024-01-02 00:00:00.000").toList, ("2024-01-01 00:00:00.000").toList] := by
  refine ⟨by decide, by decide, ?_⟩
  intro hp
  have h1 := (List.pairwise_cons.mp hp).1 (("2024-01-01 00:00:00.000").toList) (by simp)
  have h2 : strLt (("2024-01-01 00:00:00.000").toList)
      (("2024-01-02 00:00:00.000").toList) = false := h1
  have h3 : strLt (("2024-01-01 00:00:00.000").toList)
      (("2024-01-02 00:00:00.000").toList) = true := by decide
  rw [h2] at h3
  exact Bool.false_ne_true h3

/-- C1 (amended): whenever every source's stream of record keys is itself
non-decreasing, the merge loop emits records in non-decreasing key order:
for any record printed before another, the earlier key is at most the later
key. -/
theorem merge_emission_sorted_amended :
    ∀ (showName : Bool) (files : List LogFile),
      (∀ f ∈ files, List.Chain' strLe (streamKeys f)) →
      List.Pairwise strLe ((merge_loop showName files).1.map Prod.fst) := by
  intro showName files hs
  have h := merge_emitted_sorted_aux (totalWeight files + 1) showName files []
    (fun f hf _ => ⟨strLt_nil _, hs f hf⟩)
  unfold merge_loop
  exact List.chain'_iff_pairwise.mp h.tail

/-- Witness for C1 (amended): a source with ascending keys is emitted in
sorted order. -/
theorem merge_emission_sorted_amended_witness :
    List.Pairwise strLe
      ((merge_loop false
        [((LogFile.init (("a.log").toList) get_date (("boom").toList) false false
            [("2024-01-01 00:00:00.000 boom\n").toList,
             ("2024-01-02 00:00:00.000 boom\n").toList]).toOption).getD default]).1.map
        Prod.fst) := by
  apply merge_emission_sorted_amended
  intro f hf
  have hf2 : f = ((LogFile.init (("a.log").toList) get_date (("boom").toList) false false
      [("2024-01-01 00:00:00.000 boom\n").toList,
       ("2024-01-02 00:00:00.000 boom\n").toList]).toOption).getD default := by
    simpa using hf
  subst hf2
  have hsk : streamKeys (((LogFile.init (("a.log").toList) get_date (("boom").toList) false
      false
      [("2024-01-01 00:00:00.000 boom\n").toList,
       ("2024-01-02 00:00:00.000 boom\n").toList]).toOption).getD default) =
      [("2024-01-01 00:00:00.000").toList, ("2024-01-02 00:00:00.000").toList] := by
    decide
  rw [hsk]
  refine List.chain'_cons.mpr ⟨?_, List.chain'_singleton _⟩
  show strLt (("2024-01-02 00:00:00.000").toList) (("2024-01-01 00:00:00.000").toList) = false
  decide
